import Mathlib

/-!
PaLD cohesion kernels (`src/cpp/kernels.c`).

A shallow embedding of the sequential kernels `pald_orig` and `pald_opt`.

* A C array (`float *D`, `float *C`, `float *DXY`, `int *UXY`) is a map from the
  flat index to the stored value.  `float` values are read as exact rationals.
  The entries of `UXY` are integers: what the block holds before `memset` is
  arbitrary.
* Loop counters and point indices are natural numbers (every index the kernels
  form is non-negative; a non-positive `n` behaves like `n = 0`: no loop body
  runs).  The index expressions are exact as long as `n * n` fits in a 32-bit
  `int`; beyond that the matrices have more than `INT_MAX` entries.
* The size `b * b` of the two cache blocks is formed in 32-bit `int` whatever `n`
  is, so it is kept as the wrapped value `cacheLen b`: `memset` clears that many
  entries, and a negative value makes `malloc` return `NULL`.
* `C[k] += v` is `bump C k v`.
* A `for` loop with unit stride and fixed bounds is a left fold over the list
  of the values its counter takes.
* The two tile loops of `pald_opt` step by the block size `b`; with `b = 0`
  they never advance, so they are modelled with an explicit iteration budget
  and return `none` when the budget runs out.
-/

namespace PaLD

/-- Column-major linear index, `lin(i, j, n) = i + j * n`. -/
def lin (i j n : Nat) : Nat := i + j * n

/-- The assignment `C[k] += v`. -/
def bump (C : Nat → ℚ) (k : Nat) (v : ℚ) : Nat → ℚ :=
  Function.update C k (C k + v)

/-! ## `pald_orig` -/

/-- Counting pass of `pald_orig` (lines 22-29): `cfs` after the loop over `z`,
with `dxy = D[lin(x, y, n)]`. -/
def cfs (D : Nat → ℚ) (beta : ℚ) (n x y : Nat) : Nat :=
  (List.range n).foldl
    (fun c z =>
      if D (lin z x n) ≤ beta * D (lin x y n) ∨ D (lin z y n) ≤ beta * D (lin x y n)
      then c + 1 else c)
    0

/-- Body of the contribution loop of `pald_orig` for one `z` (lines 33-48);
`c` is the value of `cfs` left by the counting pass. -/
def contribStep (D : Nat → ℚ) (beta : ℚ) (n x y c : Nat) (C : Nat → ℚ) (z : Nat) :
    Nat → ℚ :=
  let dxy := D (lin x y n)
  let dzx := D (lin z x n)
  let dzy := D (lin z y n)
  if dzx ≤ beta * dxy ∨ dzy ≤ beta * dxy then
    if dzx < dzy then bump C (lin x z n) (1 / (c : ℚ))
    else if dzy < dzx then bump C (lin y z n) (1 / (c : ℚ))
    else bump (bump C (lin x z n) ((1 / 2) / (c : ℚ))) (lin y z n) ((1 / 2) / (c : ℚ))
  else C

/-- Contribution pass of `pald_orig` for the pair `(x, y)` (lines 32-49). -/
def contribPass (D : Nat → ℚ) (beta : ℚ) (n x y c : Nat) (C : Nat → ℚ) : Nat → ℚ :=
  (List.range n).foldl (contribStep D beta n x y c) C

/-- Body of the pair loops of `pald_orig` (lines 22-49): count, then contribute. -/
def pairStep (D : Nat → ℚ) (beta : ℚ) (n x y : Nat) (C : Nat → ℚ) : Nat → ℚ :=
  contribPass D beta n x y (cfs D beta n x y) C

/-- Kernel `pald_orig(D, beta, n, C)`: the final contents of `C`.  The loops are
`for x in [0, n-1)` and `for y in [x+1, n)`.  The diagnostic printed for
`beta < 0` (lines 16-17) does not touch `C` and there is no return after it. -/
def pald_orig (D : Nat → ℚ) (beta : ℚ) (n : Nat) (C : Nat → ℚ) : Nat → ℚ :=
  (List.range (n - 1)).foldl
    (fun C x =>
      (List.range' (x + 1) (n - (x + 1))).foldl (fun C y => pairStep D beta n x y C) C)
    C

/-! ## `pald_opt` -/

/-- Actual side of the block starting at `x`: `(b < n - x ? b : n - x)`. -/
def blockLen (b n x : Nat) : Nat := if b < n - x then b else n - x

/-- Number of rows handled in column `j` of a tile: `(x == y ? j : xb)`. -/
def rowLen (x y j xb : Nat) : Nat := if x = y then j else xb

/-- Call `memcpy(dst + dOff, src + sOff, len * sizeof(float))`. -/
def memcpy (dst : Nat → ℚ) (dOff : Nat) (src : Nat → ℚ) (sOff len : Nat) : Nat → ℚ :=
  fun k => if dOff ≤ k ∧ k < dOff + len then src (sOff + (k - dOff)) else dst k

/-- Value of a 32-bit `int` expression whose exact value is `k`: the low 32 bits of
`k` read as a two's-complement number. -/
def wrap32 (k : Int) : Int := (k + 2 ^ 31) % 2 ^ 32 - 2 ^ 31

/-- Value of the `int` expression `b * b` (lines 108, 109 and 145): the number of
entries of each cache block when it is not negative. -/
def cacheLen (b : Nat) : Int := wrap32 ((b : Int) * (b : Int))

/-- Call `memset(UXY, 0, len * sizeof(int))`. -/
def memset0 (U : Nat → Int) (len : Nat) : Nat → Int :=
  fun k => if k < len then 0 else U k

/-- Copy loop of a tile (lines 125-129). -/
def copyTile (D : Nat → ℚ) (n x y xb yb : Nat) (DXY : Nat → ℚ) : Nat → ℚ :=
  (List.range yb).foldl
    (fun DXY j => memcpy DXY (j * xb) D (x + (y + j) * n) (rowLen x y j xb))
    DXY

/-- Innermost statement of the counting scan (lines 158-159); `DXz = D + x + z*n`
and `DYz = D + y + z*n`. -/
def countStep (D : Nat → ℚ) (beta : ℚ) (n x y xb : Nat) (DXY : Nat → ℚ) (z j : Nat)
    (UXY : Nat → Int) (i : Nat) : Nat → Int :=
  if D (y + z * n + j) ≤ beta * DXY (i + j * xb) ∨ D (x + z * n + i) ≤ beta * DXY (i + j * xb)
  then Function.update UXY (i + j * xb) (UXY (i + j * xb) + 1) else UXY

/-- Counting scan of a tile (lines 148-165), started on `UXY` as `memset` left it. -/
def countTile (D : Nat → ℚ) (beta : ℚ) (n x y xb yb : Nat) (DXY : Nat → ℚ)
    (UXY : Nat → Int) : Nat → Int :=
  (List.range n).foldl
    (fun U z =>
      (List.range yb).foldl
        (fun U j => (List.range (rowLen x y j xb)).foldl (countStep D beta n x y xb DXY z j) U)
        U)
    UXY

/-- Innermost statement of the contribution scan (lines 194-206); `CXz = C + x + z*n`
and `CYz = C + y + z*n`. -/
def updStep (D : Nat → ℚ) (beta : ℚ) (n x y xb : Nat) (DXY : Nat → ℚ) (UXY : Nat → Int)
    (z j : Nat) (C : Nat → ℚ) (i : Nat) : Nat → ℚ :=
  let dxz := D (x + z * n + i)
  let dyz := D (y + z * n + j)
  if dyz ≤ beta * DXY (i + j * xb) ∨ dxz ≤ beta * DXY (i + j * xb) then
    if dxz < dyz then bump C (x + z * n + i) (1 / (UXY (i + j * xb) : ℚ))
    else if dyz < dxz then bump C (y + z * n + j) (1 / (UXY (i + j * xb) : ℚ))
    else bump (bump C (x + z * n + i) ((1 / 2) / (UXY (i + j * xb) : ℚ)))
      (y + z * n + j) ((1 / 2) / (UXY (i + j * xb) : ℚ))
  else C

/-- Contribution scan of a tile (lines 184-215). -/
def updTile (D : Nat → ℚ) (beta : ℚ) (n x y xb yb : Nat) (DXY : Nat → ℚ) (UXY : Nat → Int)
    (C : Nat → ℚ) : Nat → ℚ :=
  (List.range n).foldl
    (fun C z =>
      (List.range yb).foldl
        (fun C j => (List.range (rowLen x y j xb)).foldl (updStep D beta n x y xb DXY UXY z j) C)
        C)
    C

/-- State of `pald_opt`: the output matrix and the memory at the addresses `DXY`
and `UXY`.  The cells with index below `cacheLen b` are the allocated blocks; the
cells from `cacheLen b` on stand for the memory that lies behind them. -/
structure OptState where
  C : Nat → ℚ
  DXY : Nat → ℚ
  UXY : Nat → Int

/-- Body of the `x` loop of `pald_opt` (lines 121-215): one tile.  The `memset` of
line 145 clears `cacheLen b` entries, the value of `b * b` in `int`. -/
def tileStep (D : Nat → ℚ) (beta : ℚ) (n b x y : Nat) (s : OptState) : OptState :=
  let yb := blockLen b n y
  let xb := blockLen b n x
  let DXY := copyTile D n x y xb yb s.DXY
  let UXY := countTile D beta n x y xb yb DXY (memset0 s.UXY (cacheLen b).toNat)
  { C := updTile D beta n x y xb yb DXY UXY s.C, DXY := DXY, UXY := UXY }

/-- Loop `for (x = x0; x <= y; x += b)` of `pald_opt` with an iteration budget. -/
def xLoop (D : Nat → ℚ) (beta : ℚ) (n b y : Nat) : Nat → Nat → OptState → Option OptState
  | 0, x, s => if x ≤ y then none else some s
  | fuel + 1, x, s =>
    if x ≤ y then xLoop D beta n b y fuel (x + b) (tileStep D beta n b x y s) else some s

/-- Loop `for (y = y0; y < n; y += b)` of `pald_opt` with an iteration budget;
`fx` is the budget given to each run of the `x` loop. -/
def yLoop (D : Nat → ℚ) (beta : ℚ) (n b fx : Nat) : Nat → Nat → OptState → Option OptState
  | 0, y, s => if y < n then none else some s
  | fuel + 1, y, s =>
    if y < n then
      match xLoop D beta n b y fx 0 s with
      | none => none
      | some s' => yLoop D beta n b fx fuel (y + b) s'
    else some s

/-- How a call of `pald_opt` ends. -/
inductive Outcome where
  /-- The call returns and leaves the matrix `C`. -/
  | finished (C : Nat → ℚ)
  /-- Both `malloc` calls returned `NULL` and the first tile writes through it. -/
  | nullDeref
  /-- A tile loop did not finish within the iteration budget. -/
  | outOfFuel

/-- Kernel `pald_opt(D, beta, n, C, b)`.  The size passed to `malloc` is
`cacheLen b` entries.  When that value is negative the conversion to `size_t` gives
a size no allocation can satisfy, `malloc` returns `NULL` (lines 108-109 do not test
it) and, if there is a tile at all (`0 < n`), the first tile writes through the null
pointer: its copy loop at `j = 1` when `n ≥ 2`, its `memset` when `n = 1`.  Otherwise the allocations are taken to succeed, `DXY0`
and `UXY0` are what the memory at the two addresses holds, and the tile loops run
within `fuel` iterations each.  Cells with index `cacheLen b` or more lie behind
the blocks: the C standard leaves their use undefined, the embedding lets them
behave as memory cells nothing else uses. -/
def pald_opt (fuel : Nat) (D : Nat → ℚ) (beta : ℚ) (n : Nat) (C : Nat → ℚ) (b : Nat)
    (DXY0 : Nat → ℚ) (UXY0 : Nat → Int) : Outcome :=
  if cacheLen b < 0 ∧ 0 < n then Outcome.nullDeref
  else
    match yLoop D beta n b fuel fuel 0 { C := C, DXY := DXY0, UXY := UXY0 } with
    | some s => Outcome.finished s.C
    | none => Outcome.outOfFuel

/-! ## Sample data -/

/-- The all-zero matrix. -/
def zeroC : Nat → ℚ := fun _ => 0

/-- Flat storage of `[[0,5],[5,0]]` for `n = 2`. -/
def D2 : Nat → ℚ := fun k => if k = 1 ∨ k = 2 then 5 else 0

/-! ## Increments

Every statement of the contribution passes adds a value to one or two entries of
`C`; the definitions below name the matrices of increments. -/

/-- Increment of `C` made by iteration `z` of the contribution pass of `pald_orig`
for the pair `(x, y)` when the counting pass left `c`. -/
def origDelta (D : Nat → ℚ) (beta : ℚ) (n x y c z : Nat) : Nat → ℚ :=
  if D (lin z x n) ≤ beta * D (lin x y n) ∨ D (lin z y n) ≤ beta * D (lin x y n) then
    if D (lin z x n) < D (lin z y n) then Pi.single (lin x z n) (1 / (c : ℚ))
    else if D (lin z y n) < D (lin z x n) then Pi.single (lin y z n) (1 / (c : ℚ))
    else Pi.single (lin x z n) ((1 / 2) / (c : ℚ)) + Pi.single (lin y z n) ((1 / 2) / (c : ℚ))
  else 0

/-- Total increment of `C` made by the pair `(x, y)` in `pald_orig`. -/
def pairDelta (D : Nat → ℚ) (beta : ℚ) (n x y : Nat) : Nat → ℚ :=
  ∑ z in Finset.range n, origDelta D beta n x y (cfs D beta n x y) z

/-- Conflict focus size of the points `p = x + i` and `q = y + j` as the counting
scan of `pald_opt` evaluates it, every distance read from `D`. -/
def optCount (D : Nat → ℚ) (beta : ℚ) (n p q : Nat) : Nat :=
  ∑ z in Finset.range n,
    if D (q + z * n) ≤ beta * D (p + q * n) ∨ D (p + z * n) ≤ beta * D (p + q * n) then 1 else 0

/-- Increment of `C` made by one execution of the innermost statement of the
contribution scan of `pald_opt` for the points `p = x + i`, `q = y + j` and the
point `z`, when the tile caches hold `dxy` and `c` for that pair. -/
def optDelta (D : Nat → ℚ) (beta : ℚ) (n p q : Nat) (dxy : ℚ) (c : Int) (z : Nat) :
    Nat → ℚ :=
  if D (q + z * n) ≤ beta * dxy ∨ D (p + z * n) ≤ beta * dxy then
    if D (p + z * n) < D (q + z * n) then Pi.single (p + z * n) (1 / (c : ℚ))
    else if D (q + z * n) < D (p + z * n) then Pi.single (q + z * n) (1 / (c : ℚ))
    else Pi.single (p + z * n) ((1 / 2) / (c : ℚ)) + Pi.single (q + z * n) ((1 / 2) / (c : ℚ))
  else 0

/-- Total increment of `C` made by the tile `(x, y)` of `pald_opt`. -/
def tileDelta (D : Nat → ℚ) (beta : ℚ) (n b x y : Nat) : Nat → ℚ :=
  ∑ z in Finset.range n, ∑ j in Finset.range (blockLen b n y),
    ∑ i in Finset.range (rowLen x y j (blockLen b n x)),
      optDelta D beta n (x + i) (y + j) (D (x + i + (y + j) * n))
        (optCount D beta n (x + i) (y + j)) z

/-- Number of blocks of side `b` needed to cover `n` points. -/
def numBlocks (n b : Nat) : Nat := (n + b - 1) / b

/-- Total increment of `C` made by `pald_opt` for the points `p = x + i` and
`q = y + j` of a tile. -/
def optPair (D : Nat → ℚ) (beta : ℚ) (n p q : Nat) : Nat → ℚ :=
  ∑ z in Finset.range n,
    optDelta D beta n p q (D (p + q * n)) (optCount D beta n p q) z

/-! ## Input conditions -/

/-- The matrix `D` is symmetric on the points `0, ..., n-1`. -/
def SymmetricD (D : Nat → ℚ) (n : Nat) : Prop :=
  ∀ i j, i < n → j < n → D (lin i j n) = D (lin j i n)

/-- Every entry of `D` is non-negative. -/
def NonNegD (D : Nat → ℚ) (n : Nat) : Prop :=
  ∀ i j, i < n → j < n → 0 ≤ D (lin i j n)

/-- The diagonal of `D` is zero. -/
def ZeroDiagD (D : Nat → ℚ) (n : Nat) : Prop :=
  ∀ i, i < n → D (lin i i n) = 0

/-- Off-diagonal entries of `D` are strictly positive (the points are distinct). -/
def PosOffDiagD (D : Nat → ℚ) (n : Nat) : Prop :=
  ∀ i j, i < n → j < n → i ≠ j → 0 < D (lin i j n)

/-! ## Shares of one pair -/

/-- Amount that iteration `z` of the contribution pass of `pald_orig` for the pair
`(x, y)` adds to `C(x, z)`. -/
def shareX (D : Nat → ℚ) (beta : ℚ) (n x y z : Nat) : ℚ :=
  if D (lin z x n) ≤ beta * D (lin x y n) ∨ D (lin z y n) ≤ beta * D (lin x y n) then
    if D (lin z x n) < D (lin z y n) then 1 / (cfs D beta n x y : ℚ)
    else if D (lin z y n) < D (lin z x n) then 0
    else (1 / 2) / (cfs D beta n x y : ℚ)
  else 0

/-- Amount that iteration `z` of the contribution pass of `pald_orig` for the pair
`(x, y)` adds to `C(y, z)`. -/
def shareY (D : Nat → ℚ) (beta : ℚ) (n x y z : Nat) : ℚ :=
  if D (lin z x n) ≤ beta * D (lin x y n) ∨ D (lin z y n) ≤ beta * D (lin x y n) then
    if D (lin z x n) < D (lin z y n) then 0
    else if D (lin z y n) < D (lin z x n) then 1 / (cfs D beta n x y : ℚ)
    else (1 / 2) / (cfs D beta n x y : ℚ)
  else 0

/-! ## Closed-form definition of the cohesion matrix -/

/-- The point `z` is in the conflict focus of the pair `{a, b}`:
`D(z,a) ≤ beta * D(a,b)` or `D(z,b) ≤ beta * D(a,b)`. -/
def inFocusSpec (D : Nat → ℚ) (beta : ℚ) (n a b z : Nat) : Prop :=
  D (lin z a n) ≤ beta * D (lin a b n) ∨ D (lin z b n) ≤ beta * D (lin a b n)

instance (D : Nat → ℚ) (beta : ℚ) (n a b z : Nat) : Decidable (inFocusSpec D beta n a b z) :=
  inferInstanceAs (Decidable (_ ∨ _))

/-- Number of points `z'` in `[0, n)` in the conflict focus of `{a, b}`. -/
def cfsSpec (D : Nat → ℚ) (beta : ℚ) (n a b : Nat) : Nat :=
  ((Finset.range n).filter (fun z' => inFocusSpec D beta n a b z')).card

/-- Weight `w`: `1` if `D(z,a) < D(z,b)`, `1/2` if `D(z,a) = D(z,b)`, `0` if
`D(z,a) > D(z,b)`. -/
def weightSpec (D : Nat → ℚ) (n a b z : Nat) : ℚ :=
  if D (lin z a n) < D (lin z b n) then 1
  else if D (lin z a n) = D (lin z b n) then 1 / 2 else 0

/-- Closed form of `C(a, z)`: the sum over all `b ≠ a` with `z` in the conflict
focus of `{a, b}` of `w / cfs(a, b)`. -/
def cohesionSpec (D : Nat → ℚ) (beta : ℚ) (n a z : Nat) : ℚ :=
  ∑ b in (Finset.range n).filter (fun b => b ≠ a ∧ inFocusSpec D beta n a b z),
    weightSpec D n a b z / (cfsSpec D beta n a b : ℚ)

/-! ## More sample data -/

/-- Flat storage of the all-zero `2 × 2` distance matrix (two coincident points). -/
def Dsame2 : Nat → ℚ := fun _ => 0

/-- Flat storage of `[[1/2, 0], [0, 1/2]]` for `n = 2`. -/
def halfDiag2 : Nat → ℚ := fun k => if k = lin 0 0 2 ∨ k = lin 1 1 2 then 1 / 2 else 0

/-- Flat storage of the `2 × 2` matrix with every entry `1/4`. -/
def quarter2 : Nat → ℚ := fun k => if k < 2 * 2 then 1 / 4 else 0

/-! ## One iteration of the contribution scan of a tile -/

/-- Body of the loop over `z` of the contribution scan of a tile: the loops over
`j` and `i` for one `z` (lines 186-208 of `pald_opt`, and statement for statement
lines 320-342 of `pald_opt_par`, where `DXz`, `DYz`, `CXz`, `CYz` are set to the same
addresses at the top of the iteration). -/
def updZ (D : Nat → ℚ) (beta : ℚ) (n x y xb yb : Nat) (DXY : Nat → ℚ) (UXY : Nat → Int)
    (C : Nat → ℚ) (z : Nat) : Nat → ℚ :=
  (List.range yb).foldl
    (fun C j => (List.range (rowLen x y j xb)).foldl (updStep D beta n x y xb DXY UXY z j) C)
    C

/-- Flat storage of the non-symmetric matrix `[[0,3,5],[1,0,6],[2,4,0]]` for `n = 3`:
`D(1,0) = 1`, `D(2,0) = 2`, `D(0,1) = 3`, `D(2,1) = 4`, `D(0,2) = 5`, `D(1,2) = 6`. -/
def Dasym3 : Nat → ℚ := fun k =>
  if k = 1 then 1 else if k = 2 then 2 else if k = 3 then 3 else if k = 5 then 4
  else if k = 6 then 5 else if k = 7 then 6 else 0

/-! ## The tile loops with an arbitrary body -/

/-- Loop `for (x = x0; x <= y; x += b)` of `pald_opt` with an iteration budget,
running `body x` in place of the tile. -/
def xLoopG {S : Type} (body : Nat → S → S) (b y : Nat) : Nat → Nat → S → Option S
  | 0, x, s => if x ≤ y then none else some s
  | fuel + 1, x, s => if x ≤ y then xLoopG body b y fuel (x + b) (body x s) else some s

/-- Loop `for (y = y0; y < n; y += b)` of `pald_opt` with an iteration budget,
running `body x y` in place of the tile `(x, y)`. -/
def yLoopG {S : Type} (body : Nat → Nat → S → S) (n b fx : Nat) : Nat → Nat → S → Option S
  | 0, y, s => if y < n then none else some s
  | fuel + 1, y, s =>
    if y < n then
      match xLoopG (fun x s => body x y s) b y fx 0 s with
      | none => none
      | some s' => yLoopG body n b fx fuel (y + b) s'
    else some s

/-- Point pairs `(x + i, y + j)` reached by the loops over `j` and `i` of the tile
`(x, y)` (lines 150-152), appended to `L` in the order the loops reach them. -/
def tilePairs (n b x y : Nat) (L : List (Nat × Nat)) : List (Nat × Nat) :=
  (List.range (blockLen b n y)).foldl
    (fun L j =>
      (List.range (rowLen x y j (blockLen b n x))).foldl (fun L i => L ++ [(x + i, y + j)]) L)
    L

/-- Point pairs reached by the tile loops of `pald_opt`, in order, or `none` when a
tile loop does not finish within `fuel` iterations. -/
def visitedPairs (fuel n b : Nat) : Option (List (Nat × Nat)) :=
  yLoopG (tilePairs n b) n b fuel fuel 0 []

/-! ## Array accesses of `pald_opt` -/

/-- One array access of `pald_opt`, with the offset from the start of the array.
Offsets formed by pointer arithmetic are exact; an offset that the source computes
as an `int` expression is recorded with its 32-bit value. -/
inductive Access where
  /-- A read of `D[k]` through `DXz[i]` or `DYz[j]`. -/
  | readD (k : Int)
  /-- The source range `D[start .. start + len)` of a `memcpy`. -/
  | copySrc (start : Int) (len : Nat)
  /-- The destination range `DXY[start .. start + len)` of a `memcpy`. -/
  | copyDst (start : Int) (len : Nat)
  /-- The range `UXY[0 .. len)` cleared by `memset`. -/
  | clear (len : Int)
  /-- A use of index `k` on the tile caches: `DXY[k]` and `UXY[k]`. -/
  | cache (k : Int)
  /-- An update `C[k] += ...` through `CXz[i]` or `CYz[j]`. -/
  | updC (k : Int)
  deriving DecidableEq

/-- The access stays inside its array.  `D` and `C` hold `n * n` entries.  `DXY` and
`UXY` hold `cacheLen b` entries, the size the two `malloc` calls are given; when
that value is negative they are null pointers and no access through them is in
bounds. -/
def Access.inBounds (n b : Nat) : Access → Prop
  | Access.readD k => 0 ≤ k ∧ k < (n : Int) * (n : Int)
  | Access.copySrc start len => 0 ≤ start ∧ start + (len : Int) ≤ (n : Int) * (n : Int)
  | Access.copyDst start len => 0 ≤ start ∧ start + (len : Int) ≤ cacheLen b
  | Access.clear len => 0 ≤ len ∧ len ≤ cacheLen b
  | Access.cache k => 0 ≤ k ∧ k < cacheLen b
  | Access.updC k => 0 ≤ k ∧ k < (n : Int) * (n : Int)

instance (n b : Nat) (a : Access) : Decidable (a.inBounds n b) := by
  cases a <;> unfold Access.inBounds <;> infer_instance

/-- Array accesses of one tile of `pald_opt` (lines 125-215), appended to `L` in
program order: the copy loop, the `memset`, the counting scan and the contribution
scan.  For the contribution scan the updates of both branches are recorded.  The
products `(y + j) * n`, `j * xb` and `b * b` and the sum `i + j * xb` are `int`
expressions of the source. -/
def tileAccesses (n b x y : Nat) (L : List Access) : List Access :=
  let yb := blockLen b n y
  let xb := blockLen b n x
  let L1 := (List.range yb).foldl
    (fun L j => L ++ [Access.copySrc ((x : Int) + wrap32 (((y + j) * n : Nat) : Int))
        (rowLen x y j xb),
      Access.copyDst (wrap32 ((j * xb : Nat) : Int)) (rowLen x y j xb)])
    L
  let L2 := L1 ++ [Access.clear (cacheLen b)]
  let L3 := (List.range n).foldl
    (fun L z =>
      (List.range yb).foldl
        (fun L j => (List.range (rowLen x y j xb)).foldl
          (fun L i => L ++ [Access.readD ((y + z * n + j : Nat) : Int),
            Access.cache (wrap32 ((i + j * xb : Nat) : Int)),
            Access.readD ((x + z * n + i : Nat) : Int)])
          L)
        L)
    L2
  (List.range n).foldl
    (fun L z =>
      (List.range yb).foldl
        (fun L j => (List.range (rowLen x y j xb)).foldl
          (fun L i => L ++ [Access.readD ((y + z * n + j : Nat) : Int),
            Access.cache (wrap32 ((i + j * xb : Nat) : Int)),
            Access.readD ((x + z * n + i : Nat) : Int),
            Access.updC ((x + z * n + i : Nat) : Int),
            Access.updC ((y + z * n + j : Nat) : Int)])
          L)
        L)
    L3

/-- Array accesses of `pald_opt(D, beta, n, C, b)` in program order, or `none` when
a tile loop does not finish within `fuel` iterations. -/
def optAccesses (fuel n b : Nat) : Option (List Access) :=
  yLoopG (tileAccesses n b) n b fuel fuel 0 []

/-! ## Sample results for an oversized block -/

/-- Flat storage of `[[1/9, 0], [0, 1/9]]` for `n = 2`. -/
def ninthDiag2 : Nat → ℚ := fun k => if k = lin 0 0 2 ∨ k = lin 1 1 2 then 1 / 9 else 0

/-- Flat storage of `[[-1/2, 0], [0, -1/2]]` for `n = 2`. -/
def negHalfDiag2 : Nat → ℚ := fun k => if k = lin 0 0 2 ∨ k = lin 1 1 2 then -(1 / 2) else 0

/-! ## Loops as sums of increments -/

theorem foldl_range_add {M : Type} [AddCommMonoid M] (f : M → Nat → M) (d : Nat → M)
    (n : Nat) (h : ∀ s i, i < n → f s i = s + d i) (s : M) :
    (List.range n).foldl f s = s + ∑ i in Finset.range n, d i := by
  induction n with
  | zero => simp
  | succ m ih =>
    rw [List.range_succ, List.foldl_append, ih (fun s i hi => h s i (Nat.lt_succ_of_lt hi))]
    simp only [List.foldl_cons, List.foldl_nil]
    rw [h _ m (Nat.lt_succ_self m), Finset.sum_range_succ, add_assoc]

theorem foldl_range'_add {M : Type} [AddCommMonoid M] (f : M → Nat → M) (d : Nat → M)
    (a n : Nat) (h : ∀ s i, i < n → f s (a + i) = s + d (a + i)) (s : M) :
    (List.range' a n).foldl f s = s + ∑ i in Finset.range n, d (a + i) := by
  rw [List.range'_eq_map_range, List.foldl_map]
  exact foldl_range_add (fun s i => f s (a + i)) (fun i => d (a + i)) n h s

theorem bump_eq (C : Nat → ℚ) (k : Nat) (v : ℚ) : bump C k v = C + Pi.single k v := by
  funext i
  by_cases h : i = k
  · subst h; simp [bump]
  · simp [bump, Function.update_noteq h, Pi.single_eq_of_ne h]

theorem contribStep_eq (D : Nat → ℚ) (beta : ℚ) (n x y c : Nat) (C : Nat → ℚ) (z : Nat) :
    contribStep D beta n x y c C z = C + origDelta D beta n x y c z := by
  unfold contribStep origDelta
  simp only [bump_eq]
  split_ifs <;> simp [add_assoc]

theorem pairStep_eq (D : Nat → ℚ) (beta : ℚ) (n x y : Nat) (C : Nat → ℚ) :
    pairStep D beta n x y C = C + pairDelta D beta n x y := by
  unfold pairStep contribPass pairDelta
  exact foldl_range_add _ _ n (fun s i _ => contribStep_eq D beta n x y _ s i) C

theorem pald_orig_eq (D : Nat → ℚ) (beta : ℚ) (n : Nat) (C : Nat → ℚ) :
    pald_orig D beta n C =
      C + ∑ x in Finset.range (n - 1), ∑ i in Finset.range (n - (x + 1)),
        pairDelta D beta n x (x + 1 + i) := by
  unfold pald_orig
  refine foldl_range_add _ _ (n - 1) (fun s x _ => ?_) C
  exact foldl_range'_add (fun C y => pairStep D beta n x y C) (pairDelta D beta n x) (x + 1)
    (n - (x + 1)) (fun s i _ => pairStep_eq D beta n x _ s) s

/-! ## The tile caches of `pald_opt` -/

theorem blockLen_le (b n x : Nat) : blockLen b n x ≤ b := by
  unfold blockLen; split_ifs <;> omega

theorem blockLen_le_sub (b n x : Nat) : blockLen b n x ≤ n - x := by
  unfold blockLen; split_ifs <;> omega

theorem rowLen_le (b n x y j : Nat) (hj : j < blockLen b n y) :
    rowLen x y j (blockLen b n x) ≤ blockLen b n x := by
  unfold rowLen; split_ifs with h
  · subst h; omega
  · exact le_rfl

theorem copyTile_get (D : Nat → ℚ) (n x y xb : Nat) (DXY : Nat → ℚ) (yb : Nat)
    (hrow : ∀ j, j < yb → rowLen x y j xb ≤ xb) (j i : Nat) (hj : j < yb)
    (hi : i < rowLen x y j xb) :
    copyTile D n x y xb yb DXY (i + j * xb) = D (x + (y + j) * n + i) := by
  unfold copyTile
  induction yb with
  | zero => omega
  | succ m ih =>
    rw [List.range_succ, List.foldl_append]
    simp only [List.foldl_cons, List.foldl_nil, memcpy]
    have hixb : i < xb := lt_of_lt_of_le hi (hrow j hj)
    by_cases hjm : j = m
    · subst hjm
      rw [if_pos ⟨by omega, by omega⟩]
      congr 1; omega
    · have hjlt : j < m := by omega
      have hlt : i + j * xb < m * xb := by
        calc i + j * xb < xb + j * xb := by omega
          _ = (j + 1) * xb := by ring
          _ ≤ m * xb := Nat.mul_le_mul_right xb hjlt
      rw [if_neg (by omega)]
      exact ih (fun j hj => hrow j (Nat.lt_succ_of_lt hj)) hjlt

theorem countStep_eq (D : Nat → ℚ) (beta : ℚ) (n x y xb : Nat) (DXY : Nat → ℚ) (z j : Nat)
    (UXY : Nat → Int) (i : Nat) :
    countStep D beta n x y xb DXY z j UXY i =
      UXY + (if D (y + z * n + j) ≤ beta * DXY (i + j * xb) ∨
              D (x + z * n + i) ≤ beta * DXY (i + j * xb)
            then Pi.single (i + j * xb) 1 else 0) := by
  unfold countStep
  split_ifs
  · funext k
    by_cases h : k = i + j * xb
    · subst h; simp
    · simp [Function.update_noteq h, Pi.single_eq_of_ne h]
  · simp

theorem countTile_eq (D : Nat → ℚ) (beta : ℚ) (n x y xb yb : Nat) (DXY : Nat → ℚ)
    (UXY : Nat → Int) :
    countTile D beta n x y xb yb DXY UXY =
      UXY + ∑ z in Finset.range n, ∑ j in Finset.range yb,
        ∑ i in Finset.range (rowLen x y j xb),
          (if D (y + z * n + j) ≤ beta * DXY (i + j * xb) ∨
              D (x + z * n + i) ≤ beta * DXY (i + j * xb)
            then Pi.single (i + j * xb) 1 else 0) := by
  unfold countTile
  refine foldl_range_add _ _ n (fun s z _ => ?_) UXY
  refine foldl_range_add _ _ yb (fun s j _ => ?_) s
  exact foldl_range_add _ _ _ (fun s i _ => countStep_eq D beta n x y xb DXY z j s i) s

theorem tile_index_inj (xb i j i0 j0 : Nat) (hi : i < xb) (hi0 : i0 < xb)
    (h : i + j * xb = i0 + j0 * xb) : i = i0 ∧ j = j0 := by
  have h1 : (i + j * xb) % xb = (i0 + j0 * xb) % xb := by rw [h]
  have h2 : (i + j * xb) / xb = (i0 + j0 * xb) / xb := by rw [h]
  have hxb : 0 < xb := by omega
  rw [Nat.add_mul_mod_self_right, Nat.add_mul_mod_self_right, Nat.mod_eq_of_lt hi,
    Nat.mod_eq_of_lt hi0] at h1
  rw [Nat.add_mul_div_right _ _ hxb, Nat.add_mul_div_right _ _ hxb, Nat.div_eq_of_lt hi,
    Nat.div_eq_of_lt hi0] at h2
  exact ⟨h1, by omega⟩

theorem tile_sum_single {M : Type} [AddCommMonoid M] (xb yb : Nat) (r : Nat → Nat)
    (hrow : ∀ j, j < yb → r j ≤ xb) (g : Nat → Nat → M) (j0 i0 : Nat) (hj0 : j0 < yb)
    (hi0 : i0 < r j0) :
    (∑ j in Finset.range yb, ∑ i in Finset.range (r j),
      if i + j * xb = i0 + j0 * xb then g j i else 0) = g j0 i0 := by
  have hi0xb : i0 < xb := lt_of_lt_of_le hi0 (hrow j0 hj0)
  rw [Finset.sum_eq_single j0]
  · rw [Finset.sum_eq_single i0]
    · simp
    · intro i _ hne
      rw [if_neg]
      intro h
      exact hne (by omega)
    · intro h
      exact absurd (Finset.mem_range.2 hi0) h
  · intro j hj hne
    apply Finset.sum_eq_zero
    intro i hi
    rw [if_neg]
    intro h
    have hj' := Finset.mem_range.1 hj
    have hi' := Finset.mem_range.1 hi
    exact hne (tile_index_inj xb i j i0 j0 (lt_of_lt_of_le hi' (hrow j hj')) hi0xb h).2
  · intro h
    exact absurd (Finset.mem_range.2 hj0) h

theorem countTile_get (D : Nat → ℚ) (beta : ℚ) (n x y xb yb : Nat) (DXY : Nat → ℚ)
    (UXY : Nat → Int) (hrow : ∀ j, j < yb → rowLen x y j xb ≤ xb) (j0 i0 : Nat)
    (hj0 : j0 < yb) (hi0 : i0 < rowLen x y j0 xb) :
    countTile D beta n x y xb yb DXY UXY (i0 + j0 * xb) =
      UXY (i0 + j0 * xb) + ∑ z in Finset.range n,
        if D (y + z * n + j0) ≤ beta * DXY (i0 + j0 * xb) ∨
            D (x + z * n + i0) ≤ beta * DXY (i0 + j0 * xb) then 1 else 0 := by
  rw [countTile_eq]
  simp only [Pi.add_apply, Finset.sum_apply]
  congr 1
  refine Finset.sum_congr rfl (fun z _ => ?_)
  rw [← tile_sum_single xb yb (fun j => rowLen x y j xb) hrow
    (fun j i => if D (y + z * n + j) ≤ beta * DXY (i + j * xb) ∨
            D (x + z * n + i) ≤ beta * DXY (i + j * xb) then 1 else 0) j0 i0 hj0 hi0]
  refine Finset.sum_congr rfl (fun j _ => Finset.sum_congr rfl (fun i _ => ?_))
  by_cases h : i + j * xb = i0 + j0 * xb
  · rw [if_pos h]
    split_ifs
    · rw [h]; simp
    · simp
  · rw [if_neg h]
    split_ifs
    · simp [Pi.single_apply, Ne.symm h]
    · simp

theorem updStep_eq (D : Nat → ℚ) (beta : ℚ) (n x y xb : Nat) (DXY : Nat → ℚ) (UXY : Nat → Int)
    (z j : Nat) (C : Nat → ℚ) (i : Nat) :
    updStep D beta n x y xb DXY UXY z j C i =
      C + optDelta D beta n (x + i) (y + j) (DXY (i + j * xb)) (UXY (i + j * xb)) z := by
  have hx : x + z * n + i = x + i + z * n := by omega
  have hy : y + z * n + j = y + j + z * n := by omega
  unfold updStep optDelta
  simp only [bump_eq, hx, hy]
  split_ifs <;> simp [add_assoc]

theorem updTile_eq (D : Nat → ℚ) (beta : ℚ) (n x y xb yb : Nat) (DXY : Nat → ℚ)
    (UXY : Nat → Int) (C : Nat → ℚ) :
    updTile D beta n x y xb yb DXY UXY C =
      C + ∑ z in Finset.range n, ∑ j in Finset.range yb,
        ∑ i in Finset.range (rowLen x y j xb),
          optDelta D beta n (x + i) (y + j) (DXY (i + j * xb)) (UXY (i + j * xb)) z := by
  unfold updTile
  refine foldl_range_add _ _ n (fun s z _ => ?_) C
  refine foldl_range_add _ _ yb (fun s j _ => ?_) s
  exact foldl_range_add _ _ _ (fun s i _ => updStep_eq D beta n x y xb DXY UXY z j s i) s

theorem tile_index_lt (b xb yb i j : Nat) (hxb : xb ≤ b) (hyb : yb ≤ b) (hi : i < xb)
    (hj : j < yb) : i + j * xb < b * b := by
  calc i + j * xb < xb + j * xb := by omega
    _ = (j + 1) * xb := by ring
    _ ≤ b * b := Nat.mul_le_mul (by omega) hxb

theorem wrap32_of_lt (k : Int) (h0 : 0 ≤ k) (h1 : k < 2 ^ 31) : wrap32 k = k := by
  unfold wrap32
  norm_num at h1 ⊢
  omega

theorem cacheLen_of_lt (b : Nat) (hb31 : b * b < 2 ^ 31) : cacheLen b = ((b * b : Nat) : Int) := by
  unfold cacheLen
  rw [wrap32_of_lt]
  · push_cast; rfl
  · positivity
  · exact_mod_cast hb31

theorem cacheLen_toNat (b : Nat) (hb31 : b * b < 2 ^ 31) : (cacheLen b).toNat = b * b := by
  rw [cacheLen_of_lt b hb31, Int.toNat_natCast]

theorem cacheLen_nonneg (b : Nat) (hb31 : b * b < 2 ^ 31) : ¬ cacheLen b < 0 := by
  rw [cacheLen_of_lt b hb31]
  exact not_lt.2 (Int.natCast_nonneg _)

theorem tileStep_UXY_raw (D : Nat → ℚ) (beta : ℚ) (n b x y : Nat) (s : OptState) (j i : Nat)
    (hj : j < blockLen b n y) (hi : i < rowLen x y j (blockLen b n x)) :
    (tileStep D beta n b x y s).UXY (i + j * blockLen b n x) =
      memset0 s.UXY (cacheLen b).toNat (i + j * blockLen b n x) +
        ∑ z in Finset.range n,
          if D (y + z * n + j) ≤ beta * (tileStep D beta n b x y s).DXY (i + j * blockLen b n x) ∨
              D (x + z * n + i) ≤ beta * (tileStep D beta n b x y s).DXY (i + j * blockLen b n x)
          then 1 else 0 := by
  have hrow : ∀ j, j < blockLen b n y → rowLen x y j (blockLen b n x) ≤ blockLen b n x :=
    fun j hj => rowLen_le b n x y j hj
  unfold tileStep
  simp only []
  rw [countTile_get D beta n x y _ _ _ _ hrow j i hj hi]

theorem memset0_tile (b n x y : Nat) (U : Nat → Int) (hb31 : b * b < 2 ^ 31) (j i : Nat)
    (hj : j < blockLen b n y) (hi : i < rowLen x y j (blockLen b n x)) :
    memset0 U (cacheLen b).toNat (i + j * blockLen b n x) = 0 := by
  unfold memset0
  rw [if_pos]
  rw [cacheLen_toNat b hb31]
  exact tile_index_lt b _ _ i j (blockLen_le b n x) (blockLen_le b n y)
    (lt_of_lt_of_le hi (rowLen_le b n x y j hj)) hj

theorem tileStep_C (D : Nat → ℚ) (beta : ℚ) (n b x y : Nat) (hb31 : b * b < 2 ^ 31)
    (s : OptState) :
    (tileStep D beta n b x y s).C = s.C + tileDelta D beta n b x y := by
  have hrow : ∀ j, j < blockLen b n y → rowLen x y j (blockLen b n x) ≤ blockLen b n x :=
    fun j hj => rowLen_le b n x y j hj
  unfold tileStep tileDelta
  simp only []
  rw [updTile_eq]
  congr 1
  refine Finset.sum_congr rfl (fun z _ => Finset.sum_congr rfl (fun j hj =>
    Finset.sum_congr rfl (fun i hi => ?_)))
  have hj' := Finset.mem_range.1 hj
  have hi' := Finset.mem_range.1 hi
  have hD := copyTile_get D n x y (blockLen b n x) s.DXY (blockLen b n y) hrow j i hj' hi'
  have hidx : x + (y + j) * n + i = x + i + (y + j) * n := by omega
  rw [countTile_get D beta n x y _ _ _ _ hrow j i hj' hi', hD, hidx,
    memset0_tile b n x y s.UXY hb31 j i hj' hi', zero_add]
  have hx : ∀ z, x + z * n + i = x + i + z * n := fun z => by omega
  have hy : ∀ z, y + z * n + j = y + j + z * n := fun z => by omega
  simp only [hx, hy, optCount]
  push_cast
  rfl

/-! ## The tile loops of `pald_opt` -/

theorem xLoop_eq (D : Nat → ℚ) (beta : ℚ) (n b : Nat) (hb : 0 < b) (hb31 : b * b < 2 ^ 31)
    (k : Nat) :
    ∀ (m fuel t : Nat) (s : OptState), t + m = k + 1 → m ≤ fuel →
      ∃ s', xLoop D beta n b (k * b) fuel (t * b) s = some s' ∧
        s'.C = s.C + ∑ i in Finset.range m, tileDelta D beta n b ((t + i) * b) (k * b) := by
  intro m
  induction m with
  | zero =>
    intro fuel t s ht _
    have hgt : ¬ t * b ≤ k * b := by
      subst ht
      have : k * b < (k + 1) * b := Nat.mul_lt_mul_of_pos_right (Nat.lt_succ_self k) hb
      simpa using this
    refine ⟨s, ?_, by simp⟩
    cases fuel <;> simp [xLoop, hgt]
  | succ m ih =>
    intro fuel t s ht hfuel
    obtain ⟨f, rfl⟩ : ∃ f, fuel = f + 1 := ⟨fuel - 1, by omega⟩
    have hle : t * b ≤ k * b := Nat.mul_le_mul_right b (by omega)
    obtain ⟨s', hs', hC⟩ := ih f (t + 1) (tileStep D beta n b (t * b) (k * b) s) (by omega)
      (by omega)
    refine ⟨s', ?_, ?_⟩
    · have hidx : t * b + b = (t + 1) * b := by ring
      rw [xLoop, if_pos hle, hidx]
      exact hs'
    · have hsum : ∑ i in Finset.range m, tileDelta D beta n b ((t + 1 + i) * b) (k * b) =
          ∑ i in Finset.range m, tileDelta D beta n b ((t + (i + 1)) * b) (k * b) :=
        Finset.sum_congr rfl (fun i _ => by rw [show t + 1 + i = t + (i + 1) by omega])
      rw [hC, tileStep_C D beta n b _ _ hb31, Finset.sum_range_succ', hsum, Nat.add_zero]
      abel

theorem yLoop_eq (D : Nat → ℚ) (beta : ℚ) (n b : Nat) (hb : 0 < b) (hb31 : b * b < 2 ^ 31)
    (T : Nat)
    (hT : n ≤ T * b) (hT' : ∀ k, k < T → k * b < n) (fx : Nat) (hfx : T ≤ fx) :
    ∀ (m fuel k : Nat) (s : OptState), k + m = T → m ≤ fuel →
      ∃ s', yLoop D beta n b fx fuel (k * b) s = some s' ∧
        s'.C = s.C + ∑ i in Finset.range m, ∑ t in Finset.range (k + i + 1),
          tileDelta D beta n b (t * b) ((k + i) * b) := by
  intro m
  induction m with
  | zero =>
    intro fuel k s hk _
    have hge : ¬ k * b < n := by
      have : k = T := by omega
      subst this; omega
    refine ⟨s, ?_, by simp⟩
    cases fuel <;> simp [yLoop, hge]
  | succ m ih =>
    intro fuel k s hk hfuel
    obtain ⟨f, rfl⟩ : ∃ f, fuel = f + 1 := ⟨fuel - 1, by omega⟩
    have hlt : k * b < n := hT' k (by omega)
    obtain ⟨s1, hs1, hC1⟩ := xLoop_eq D beta n b hb hb31 k (k + 1) fx 0 s (by omega) (by omega)
    obtain ⟨s', hs', hC⟩ := ih f (k + 1) s1 (by omega) (by omega)
    rw [Nat.zero_mul] at hs1
    refine ⟨s', ?_, ?_⟩
    · have hidx : k * b + b = (k + 1) * b := by ring
      simp only [yLoop, if_pos hlt, hs1, hidx]
      exact hs'
    · have hsum : ∑ i in Finset.range m, ∑ t in Finset.range (k + 1 + i + 1),
            tileDelta D beta n b (t * b) ((k + 1 + i) * b) =
          ∑ i in Finset.range m, ∑ t in Finset.range (k + (i + 1) + 1),
            tileDelta D beta n b (t * b) ((k + (i + 1)) * b) :=
        Finset.sum_congr rfl (fun i _ => by rw [show k + 1 + i = k + (i + 1) by omega])
      have hx : ∑ i in Finset.range (k + 1), tileDelta D beta n b ((0 + i) * b) (k * b) =
          ∑ t in Finset.range (k + 0 + 1), tileDelta D beta n b (t * b) ((k + 0) * b) := by
        simp only [Nat.zero_add, Nat.add_zero]
      rw [hC, hC1, Finset.sum_range_succ' _ m, hsum, hx]
      abel

theorem numBlocks_cover (n b : Nat) (hb : 0 < b) : n ≤ numBlocks n b * b := by
  unfold numBlocks
  have := Nat.lt_mul_div_succ (n + b - 1) hb
  have h2 : b * ((n + b - 1) / b + 1) = (n + b - 1) / b * b + b := by ring
  omega

theorem numBlocks_lt (n b : Nat) (hb : 0 < b) (k : Nat) (hk : k < numBlocks n b) :
    k * b < n := by
  unfold numBlocks at hk
  have := (Nat.le_div_iff_mul_le hb).1 (Nat.succ_le_of_lt hk)
  have h2 : (k + 1) * b = k * b + b := by ring
  rw [Nat.succ_eq_add_one, h2] at this
  omega

theorem numBlocks_le (n b : Nat) (hb : 0 < b) : numBlocks n b ≤ n := by
  by_contra h
  have h1 := numBlocks_lt n b hb n (by omega)
  have : n * 1 ≤ n * b := Nat.mul_le_mul_left n hb
  omega

theorem pald_opt_eq (D : Nat → ℚ) (beta : ℚ) (n b : Nat) (hb : 0 < b)
    (hb31 : b * b < 2 ^ 31) (fuel : Nat) (hfuel : n ≤ fuel) (C : Nat → ℚ) (DXY0 : Nat → ℚ)
    (UXY0 : Nat → Int) :
    pald_opt fuel D beta n C b DXY0 UXY0 =
      Outcome.finished (C + ∑ k in Finset.range (numBlocks n b), ∑ t in Finset.range (k + 1),
        tileDelta D beta n b (t * b) (k * b)) := by
  have hT := numBlocks_le n b hb
  obtain ⟨s', hs', hC⟩ := yLoop_eq D beta n b hb hb31 (numBlocks n b) (numBlocks_cover n b hb)
    (numBlocks_lt n b hb) fuel (by omega) (numBlocks n b) fuel 0
    { C := C, DXY := DXY0, UXY := UXY0 } (by omega) (by omega)
  rw [Nat.zero_mul] at hs'
  have hneg : ¬ (cacheLen b < 0 ∧ 0 < n) := fun h => cacheLen_nonneg b hb31 h.1
  unfold pald_opt
  rw [if_neg hneg, hs']
  simp only [hC, zero_add]

/-! ## Reindexing the tiles by point pairs -/

theorem tileDelta_eq (D : Nat → ℚ) (beta : ℚ) (n b x y : Nat) :
    tileDelta D beta n b x y =
      ∑ j in Finset.range (blockLen b n y),
        ∑ i in Finset.range (rowLen x y j (blockLen b n x)),
          optPair D beta n (x + i) (y + j) := by
  unfold tileDelta optPair
  rw [Finset.sum_comm]
  refine Finset.sum_congr rfl (fun j _ => ?_)
  rw [Finset.sum_comm]

theorem sum_full_blocks {M : Type} [AddCommMonoid M] (b : Nat) (h : Nat → M) (k : Nat) :
    (∑ t in Finset.range k, ∑ i in Finset.range b, h (t * b + i)) =
      ∑ p in Finset.range (k * b), h p := by
  induction k with
  | zero => simp
  | succ k ih =>
    rw [Finset.sum_range_succ, ih, Nat.succ_mul, Finset.sum_range_add]

theorem sum_blocks {M : Type} [AddCommMonoid M] (b n : Nat) (H : Nat → M) (m : Nat) :
    (∑ k in Finset.range m, ∑ j in Finset.range (blockLen b n (k * b)), H (k * b + j)) =
      ∑ q in Finset.range (min (m * b) n), H q := by
  induction m with
  | zero => simp
  | succ m ih =>
    rw [Finset.sum_range_succ, ih]
    have hlen : min ((m + 1) * b) n = min (m * b) n + blockLen b n (m * b) := by
      unfold blockLen
      rw [Nat.succ_mul]
      split_ifs <;> omega
    rw [hlen, Finset.sum_range_add]
    congr 1
    by_cases hlt : m * b < n
    · rw [min_eq_left (le_of_lt hlt)]
    · have : blockLen b n (m * b) = 0 := by
        unfold blockLen
        split_ifs <;> omega
      rw [this]
      simp

theorem blockLen_full (b n x y : Nat) (hxy : x + b ≤ y) (hy : y < n) : blockLen b n x = b := by
  unfold blockLen
  rw [if_pos (by omega)]

theorem tile_row_sum (D : Nat → ℚ) (beta : ℚ) (n b : Nat) (hb : 0 < b) (k : Nat)
    (hk : k * b < n) :
    (∑ t in Finset.range (k + 1), tileDelta D beta n b (t * b) (k * b)) =
      ∑ j in Finset.range (blockLen b n (k * b)),
        ∑ p in Finset.range (k * b + j), optPair D beta n p (k * b + j) := by
  rw [Finset.sum_range_succ]
  have hoff : ∀ t, t ∈ Finset.range k → tileDelta D beta n b (t * b) (k * b) =
      ∑ j in Finset.range (blockLen b n (k * b)), ∑ i in Finset.range b,
        optPair D beta n (t * b + i) (k * b + j) := by
    intro t ht
    have ht' := Finset.mem_range.1 ht
    have hle : t * b + b ≤ k * b := by
      have := Nat.mul_le_mul_right b (Nat.succ_le_of_lt ht')
      rw [Nat.succ_mul] at this
      exact this
    have hne : t * b ≠ k * b := by omega
    rw [tileDelta_eq]
    refine Finset.sum_congr rfl (fun j _ => ?_)
    rw [rowLen, if_neg hne, blockLen_full b n (t * b) (k * b) hle hk]
  have hdiag : tileDelta D beta n b (k * b) (k * b) =
      ∑ j in Finset.range (blockLen b n (k * b)), ∑ i in Finset.range j,
        optPair D beta n (k * b + i) (k * b + j) := by
    rw [tileDelta_eq]
    refine Finset.sum_congr rfl (fun j _ => ?_)
    rw [rowLen, if_pos rfl]
  rw [Finset.sum_congr rfl hoff, hdiag, Finset.sum_comm, ← Finset.sum_add_distrib]
  refine Finset.sum_congr rfl (fun j _ => ?_)
  rw [sum_full_blocks b (fun p => optPair D beta n p (k * b + j)) k, Finset.sum_range_add]

theorem opt_total (D : Nat → ℚ) (beta : ℚ) (n b : Nat) (hb : 0 < b) :
    (∑ k in Finset.range (numBlocks n b), ∑ t in Finset.range (k + 1),
        tileDelta D beta n b (t * b) (k * b)) =
      ∑ q in Finset.range n, ∑ p in Finset.range q, optPair D beta n p q := by
  have h1 : ∀ k, k ∈ Finset.range (numBlocks n b) →
      (∑ t in Finset.range (k + 1), tileDelta D beta n b (t * b) (k * b)) =
        ∑ j in Finset.range (blockLen b n (k * b)),
          (fun q => ∑ p in Finset.range q, optPair D beta n p q) (k * b + j) :=
    fun k hk => tile_row_sum D beta n b hb k (numBlocks_lt n b hb k (Finset.mem_range.1 hk))
  rw [Finset.sum_congr rfl h1,
    sum_blocks b n (fun q => ∑ p in Finset.range q, optPair D beta n p q) (numBlocks n b),
    min_eq_right (numBlocks_cover n b hb)]

theorem orig_total {M : Type} [AddCommMonoid M] (n : Nat) (g : Nat → Nat → M) :
    (∑ x in Finset.range (n - 1), ∑ i in Finset.range (n - (x + 1)), g x (x + 1 + i)) =
      ∑ q in Finset.range n, ∑ p in Finset.range q, g p q := by
  have h1 : ∀ x, x ∈ Finset.range (n - 1) →
      (∑ i in Finset.range (n - (x + 1)), g x (x + 1 + i)) =
        ∑ q in Finset.Ico (x + 1) n, g x q := by
    intro x _
    rw [Finset.sum_Ico_eq_sum_range]
  rw [Finset.sum_congr rfl h1]
  refine Finset.sum_comm' (fun x q => ?_)
  simp only [Finset.mem_range, Finset.mem_Ico]
  omega

/-! ## Agreement of the two kernels on symmetric input -/

theorem cfs_eq_sum (D : Nat → ℚ) (beta : ℚ) (n x y : Nat) :
    cfs D beta n x y =
      ∑ z in Finset.range n,
        if D (lin z x n) ≤ beta * D (lin x y n) ∨ D (lin z y n) ≤ beta * D (lin x y n)
        then 1 else 0 := by
  unfold cfs
  rw [foldl_range_add _ (fun z => if D (lin z x n) ≤ beta * D (lin x y n) ∨
    D (lin z y n) ≤ beta * D (lin x y n) then 1 else 0) n (fun s z _ => ?_) 0, zero_add]
  show (if _ then s + 1 else s) = s + (if _ then 1 else 0)
  split_ifs <;> simp

theorem optCount_eq_cfs (D : Nat → ℚ) (beta : ℚ) (n p q : Nat) (hsym : SymmetricD D n)
    (hp : p < n) (hq : q < n) : optCount D beta n p q = cfs D beta n p q := by
  rw [cfs_eq_sum]
  unfold optCount
  refine Finset.sum_congr rfl (fun z hz => ?_)
  have hz' := Finset.mem_range.1 hz
  have h1 : D (lin z p n) = D (p + z * n) := hsym z p hz' hp
  have h2 : D (lin z q n) = D (q + z * n) := hsym z q hz' hq
  have h3 : D (lin p q n) = D (p + q * n) := rfl
  rw [h1, h2, h3]
  exact if_congr or_comm rfl rfl

theorem optPair_eq_pairDelta (D : Nat → ℚ) (beta : ℚ) (n p q : Nat) (hsym : SymmetricD D n)
    (hp : p < n) (hq : q < n) : optPair D beta n p q = pairDelta D beta n p q := by
  unfold optPair pairDelta
  rw [optCount_eq_cfs D beta n p q hsym hp hq]
  refine Finset.sum_congr rfl (fun z hz => ?_)
  have hz' := Finset.mem_range.1 hz
  have h1 : D (lin z p n) = D (p + z * n) := hsym z p hz' hp
  have h2 : D (lin z q n) = D (q + z * n) := hsym z q hz' hq
  have h3 : D (lin p q n) = D (p + q * n) := rfl
  unfold optDelta origDelta
  rw [h1, h2, h3]
  simp only [lin]
  exact if_congr or_comm rfl rfl

theorem pald_orig_sum (D : Nat → ℚ) (beta : ℚ) (n : Nat) (C : Nat → ℚ) :
    pald_orig D beta n C =
      C + ∑ q in Finset.range n, ∑ p in Finset.range q, pairDelta D beta n p q := by
  rw [pald_orig_eq, orig_total n (pairDelta D beta n)]

theorem pald_opt_sum (D : Nat → ℚ) (beta : ℚ) (n b : Nat) (hb : 0 < b)
    (hb31 : b * b < 2 ^ 31) (fuel : Nat) (hfuel : n ≤ fuel) (C : Nat → ℚ) (DXY0 : Nat → ℚ)
    (UXY0 : Nat → Int) :
    pald_opt fuel D beta n C b DXY0 UXY0 =
      Outcome.finished
        (C + ∑ q in Finset.range n, ∑ p in Finset.range q, optPair D beta n p q) := by
  rw [pald_opt_eq D beta n b hb hb31 fuel hfuel, opt_total D beta n b hb]

/-! ## Entries of the increment of one pair -/

theorem lin_inj (n i j i0 j0 : Nat) (hi : i < n) (hi0 : i0 < n)
    (h : lin i j n = lin i0 j0 n) : i = i0 ∧ j = j0 :=
  tile_index_inj n i j i0 j0 hi hi0 h

theorem single_lin_apply (n x z' a z : Nat) (v : ℚ) (hx : x < n) (ha : a < n) :
    (Pi.single (lin x z' n) v : Nat → ℚ) (lin a z n) = if x = a ∧ z' = z then v else 0 := by
  rw [Pi.single_apply]
  by_cases h : x = a ∧ z' = z
  · rw [if_pos h, if_pos (by rw [h.1, h.2])]
  · rw [if_neg h, if_neg]
    intro h'
    have := lin_inj n a z x z' ha hx h'
    exact h ⟨this.1.symm, this.2.symm⟩

theorem origDelta_apply (D : Nat → ℚ) (beta : ℚ) (n x y c z' a z : Nat) (hx : x < n)
    (hy : y < n) (ha : a < n) :
    origDelta D beta n x y c z' (lin a z n) =
      if z' = z then
        (if x = a then
          (if D (lin z x n) ≤ beta * D (lin x y n) ∨ D (lin z y n) ≤ beta * D (lin x y n) then
            if D (lin z x n) < D (lin z y n) then 1 / (c : ℚ)
            else if D (lin z y n) < D (lin z x n) then 0
            else (1 / 2) / (c : ℚ)
          else 0) else 0) +
        (if y = a then
          (if D (lin z x n) ≤ beta * D (lin x y n) ∨ D (lin z y n) ≤ beta * D (lin x y n) then
            if D (lin z x n) < D (lin z y n) then 0
            else if D (lin z y n) < D (lin z x n) then 1 / (c : ℚ)
            else (1 / 2) / (c : ℚ)
          else 0) else 0)
      else 0 := by
  unfold origDelta
  by_cases hz : z' = z
  · subst hz
    simp only [if_true]
    split_ifs <;> simp [single_lin_apply, hx, hy, ha, *]
  · rw [if_neg hz]
    split_ifs <;> simp [single_lin_apply, hx, hy, ha, hz]

theorem pairDelta_apply (D : Nat → ℚ) (beta : ℚ) (n x y a z : Nat) (hx : x < n)
    (hy : y < n) (ha : a < n) (hz : z < n) :
    pairDelta D beta n x y (lin a z n) =
      (if x = a then shareX D beta n x y z else 0) +
        (if y = a then shareY D beta n x y z else 0) := by
  unfold pairDelta shareX shareY
  rw [Finset.sum_apply, Finset.sum_eq_single z]
  · rw [origDelta_apply D beta n x y _ z a z hx hy ha, if_pos rfl]
  · intro z' _ hne
    rw [origDelta_apply D beta n x y _ z' a z hx hy ha, if_neg hne]
  · intro h
    exact absurd (Finset.mem_range.2 hz) h

/-! ## Entries of the result of `pald_orig` -/

theorem cfsSpec_eq_cfs (D : Nat → ℚ) (beta : ℚ) (n a b : Nat) :
    cfsSpec D beta n a b = cfs D beta n a b := by
  rw [cfs_eq_sum, cfsSpec, Finset.card_filter]
  rfl

theorem cfs_swap (D : Nat → ℚ) (beta : ℚ) (n x y : Nat) (hsym : SymmetricD D n)
    (hx : x < n) (hy : y < n) : cfs D beta n x y = cfs D beta n y x := by
  rw [cfs_eq_sum, cfs_eq_sum, hsym x y hx hy]
  exact Finset.sum_congr rfl (fun z _ => if_congr or_comm rfl rfl)

theorem tri_sum_split (n a : Nat) (ha : a < n) (f g : Nat → Nat → ℚ) :
    (∑ q in Finset.range n, ∑ p in Finset.range q,
        ((if p = a then f p q else 0) + (if q = a then g p q else 0))) =
      ∑ b in Finset.range n, ((if a < b then f a b else 0) + (if b < a then g b a else 0)) := by
  simp only [Finset.sum_add_distrib]
  congr 1
  · refine Finset.sum_congr rfl (fun q _ => ?_)
    rw [Finset.sum_ite_eq']
    simp only [Finset.mem_range]
  · have h1 : ∀ q, q ∈ Finset.range n →
        (∑ p in Finset.range q, if q = a then g p q else 0) =
          if q = a then ∑ p in Finset.range a, g p a else 0 := by
      intro q _
      by_cases hq : q = a
      · subst hq; simp
      · simp [hq]
    rw [Finset.sum_congr rfl h1, Finset.sum_ite_eq', if_pos (Finset.mem_range.2 ha),
      ← Finset.sum_filter]
    refine Finset.sum_congr ?_ (fun _ _ => rfl)
    ext b
    simp only [Finset.mem_range, Finset.mem_filter]
    omega

theorem share_eq_spec (D : Nat → ℚ) (beta : ℚ) (n a b z : Nat) (hsym : SymmetricD D n)
    (ha : a < n) (hb : b < n) :
    ((if a < b then shareX D beta n a b z else 0) +
        (if b < a then shareY D beta n b a z else 0)) =
      if b ≠ a ∧ inFocusSpec D beta n a b z
      then weightSpec D n a b z / (cfsSpec D beta n a b : ℚ) else 0 := by
  rw [cfsSpec_eq_cfs]
  unfold inFocusSpec weightSpec
  rcases Nat.lt_trichotomy a b with h | h | h
  · rw [if_pos h, if_neg (by omega), add_zero]
    unfold shareX
    have hne : b ≠ a := by omega
    simp only [hne, ne_eq, not_false_eq_true, true_and]
    by_cases hf : D (lin z a n) ≤ beta * D (lin a b n) ∨ D (lin z b n) ≤ beta * D (lin a b n)
    · rw [if_pos hf, if_pos hf]
      rcases lt_trichotomy (D (lin z a n)) (D (lin z b n)) with hlt | heq | hgt
      · rw [if_pos hlt, if_pos hlt]
      · rw [heq, if_neg (lt_irrefl _), if_neg (lt_irrefl _), if_neg (lt_irrefl _), if_pos rfl]
      · rw [if_neg (not_lt_of_lt hgt), if_pos hgt, if_neg (not_lt_of_lt hgt),
          if_neg (ne_of_gt hgt), zero_div]
    · rw [if_neg hf, if_neg hf]
  · subst h
    simp
  · rw [if_neg (by omega), if_pos h, zero_add]
    unfold shareY
    have hne : b ≠ a := by omega
    rw [cfs_swap D beta n b a hsym hb ha, hsym b a hb ha]
    simp only [hne, ne_eq, not_false_eq_true, true_and]
    by_cases hf : D (lin z a n) ≤ beta * D (lin a b n) ∨ D (lin z b n) ≤ beta * D (lin a b n)
    · rw [if_pos (Or.symm hf), if_pos hf]
      rcases lt_trichotomy (D (lin z a n)) (D (lin z b n)) with hlt | heq | hgt
      · rw [if_neg (not_lt_of_lt hlt), if_pos hlt, if_pos hlt]
      · rw [heq, if_neg (lt_irrefl _), if_neg (lt_irrefl _), if_neg (lt_irrefl _), if_pos rfl]
      · rw [if_pos hgt, if_neg (not_lt_of_lt hgt), if_neg (ne_of_gt hgt), zero_div]
    · rw [if_neg (fun h' => hf (Or.symm h')), if_neg hf]

theorem pald_orig_entry (D : Nat → ℚ) (beta : ℚ) (n : Nat) (C : Nat → ℚ) (a z : Nat)
    (ha : a < n) (hz : z < n) :
    pald_orig D beta n C (lin a z n) =
      C (lin a z n) + ∑ b in Finset.range n,
        ((if a < b then shareX D beta n a b z else 0) +
          (if b < a then shareY D beta n b a z else 0)) := by
  rw [pald_orig_sum, Pi.add_apply, Finset.sum_apply,
    ← tri_sum_split n a ha (fun p q => shareX D beta n p q z) (fun p q => shareY D beta n p q z)]
  congr 1
  refine Finset.sum_congr rfl (fun q hq => ?_)
  rw [Finset.sum_apply]
  refine Finset.sum_congr rfl (fun p hp => ?_)
  have hq' := Finset.mem_range.1 hq
  have hp' := Finset.mem_range.1 hp
  exact pairDelta_apply D beta n p q a z (by omega) hq' ha hz

/-! ## Conservation for one pair -/

theorem cfs_pos_of_focus (D : Nat → ℚ) (beta : ℚ) (n x y z : Nat) (hz : z < n)
    (hf : D (lin z x n) ≤ beta * D (lin x y n) ∨ D (lin z y n) ≤ beta * D (lin x y n)) :
    1 ≤ cfs D beta n x y := by
  rw [cfs_eq_sum]
  have h := Finset.single_le_sum
    (f := fun z => if D (lin z x n) ≤ beta * D (lin x y n) ∨
      D (lin z y n) ≤ beta * D (lin x y n) then 1 else 0)
    (fun i _ => Nat.zero_le _) (Finset.mem_range.2 hz)
  simp only [if_pos hf] at h
  exact h

theorem focus_self_left (D : Nat → ℚ) (beta : ℚ) (n x y : Nat) (hbeta : 0 ≤ beta)
    (hnn : NonNegD D n) (hzd : ZeroDiagD D n) (hx : x < n) (hy : y < n) :
    D (lin x x n) ≤ beta * D (lin x y n) := by
  rw [hzd x hx]
  exact mul_nonneg hbeta (hnn x y hx hy)

theorem share_add (D : Nat → ℚ) (beta : ℚ) (n x y z : Nat) :
    shareX D beta n x y z + shareY D beta n x y z =
      if D (lin z x n) ≤ beta * D (lin x y n) ∨ D (lin z y n) ≤ beta * D (lin x y n)
      then 1 / (cfs D beta n x y : ℚ) else 0 := by
  unfold shareX shareY
  split_ifs <;> ring

theorem sum_focus_div (D : Nat → ℚ) (beta : ℚ) (n x y : Nat) (hc : 1 ≤ cfs D beta n x y) :
    (∑ z in Finset.range n,
      if D (lin z x n) ≤ beta * D (lin x y n) ∨ D (lin z y n) ≤ beta * D (lin x y n)
      then 1 / (cfs D beta n x y : ℚ) else 0) = 1 := by
  have hne : (cfs D beta n x y : ℚ) ≠ 0 := by
    have : (0 : ℚ) < (cfs D beta n x y : ℚ) := by exact_mod_cast hc
    exact ne_of_gt this
  have h1 : ∀ z, z ∈ Finset.range n →
      (if D (lin z x n) ≤ beta * D (lin x y n) ∨ D (lin z y n) ≤ beta * D (lin x y n)
        then 1 / (cfs D beta n x y : ℚ) else 0) =
      ((if D (lin z x n) ≤ beta * D (lin x y n) ∨ D (lin z y n) ≤ beta * D (lin x y n)
        then 1 else 0 : Nat) : ℚ) * (1 / (cfs D beta n x y : ℚ)) := by
    intro z _
    split_ifs <;> simp
  rw [Finset.sum_congr rfl h1, ← Finset.sum_mul, ← Nat.cast_sum, ← cfs_eq_sum]
  field_simp

theorem origDelta_total (D : Nat → ℚ) (beta : ℚ) (n x y c z : Nat) (hx : x < n) (hy : y < n)
    (hz : z < n) :
    (∑ k in Finset.range (n * n), origDelta D beta n x y c z k) =
      if D (lin z x n) ≤ beta * D (lin x y n) ∨ D (lin z y n) ≤ beta * D (lin x y n)
      then 1 / (c : ℚ) else 0 := by
  have hxz : lin x z n ∈ Finset.range (n * n) :=
    Finset.mem_range.2 (tile_index_lt n n n x z le_rfl le_rfl hx hz)
  have hyz : lin y z n ∈ Finset.range (n * n) :=
    Finset.mem_range.2 (tile_index_lt n n n y z le_rfl le_rfl hy hz)
  unfold origDelta
  split_ifs
  · rw [Finset.sum_pi_single', if_pos hxz]
  · rw [Finset.sum_pi_single', if_pos hyz]
  · simp only [Pi.add_apply, Finset.sum_add_distrib]
    rw [Finset.sum_pi_single', Finset.sum_pi_single', if_pos hxz, if_pos hyz]
    ring
  · simp

/-! ## Sign of the increments -/

theorem origDelta_nonneg (D : Nat → ℚ) (beta : ℚ) (n x y c z k : Nat) :
    0 ≤ origDelta D beta n x y c z k := by
  have h1 : (0 : ℚ) ≤ 1 / (c : ℚ) := by positivity
  have h2 : (0 : ℚ) ≤ (1 / 2) / (c : ℚ) := by positivity
  unfold origDelta
  split_ifs
  · simp only [Pi.single_apply]; split_ifs <;> simp [h1]
  · simp only [Pi.single_apply]; split_ifs <;> simp [h1]
  · simp only [Pi.add_apply, Pi.single_apply]
    apply add_nonneg <;> split_ifs <;> first | exact h2 | exact le_rfl
  · simp

theorem optDelta_nonneg (D : Nat → ℚ) (beta : ℚ) (n p q : Nat) (dxy : ℚ) (c z k : Nat) :
    0 ≤ optDelta D beta n p q dxy c z k := by
  have h1 : (0 : ℚ) ≤ 1 / (c : ℚ) := by positivity
  have h2 : (0 : ℚ) ≤ (1 / 2) / (c : ℚ) := by positivity
  unfold optDelta
  split_ifs
  · simp only [Pi.single_apply]; split_ifs <;> simp [h1]
  · simp only [Pi.single_apply]; split_ifs <;> simp [h1]
  · simp only [Pi.add_apply, Pi.single_apply]
    apply add_nonneg <;> split_ifs <;> first | exact h2 | exact le_rfl
  · simp

theorem pald_orig_nonneg (D : Nat → ℚ) (beta : ℚ) (n : Nat) (C : Nat → ℚ)
    (hC : ∀ k, 0 ≤ C k) (k : Nat) : 0 ≤ pald_orig D beta n C k := by
  rw [pald_orig_sum, Pi.add_apply, Finset.sum_apply]
  refine add_nonneg (hC k) (Finset.sum_nonneg (fun q _ => ?_))
  rw [Finset.sum_apply]
  refine Finset.sum_nonneg (fun p _ => ?_)
  unfold pairDelta
  rw [Finset.sum_apply]
  exact Finset.sum_nonneg (fun z _ => origDelta_nonneg D beta n p q _ z k)

theorem optPair_sum_nonneg (D : Nat → ℚ) (beta : ℚ) (n k : Nat) :
    0 ≤ (∑ q in Finset.range n, ∑ p in Finset.range q, optPair D beta n p q) k := by
  rw [Finset.sum_apply]
  refine Finset.sum_nonneg (fun q _ => ?_)
  rw [Finset.sum_apply]
  refine Finset.sum_nonneg (fun p _ => ?_)
  unfold optPair
  rw [Finset.sum_apply]
  exact Finset.sum_nonneg (fun z _ => optDelta_nonneg D beta n p q _ _ z k)

/-! ## Negative `beta` -/

theorem pairDelta_eq_zero_of_neg (D : Nat → ℚ) (beta : ℚ) (n p q : Nat) (hbeta : beta < 0)
    (hnn : NonNegD D n) (hpos : PosOffDiagD D n) (hpq : p < q) (hq : q < n) :
    pairDelta D beta n p q = 0 := by
  have hp : p < n := by omega
  have hneg : beta * D (lin p q n) < 0 :=
    mul_neg_of_neg_of_pos hbeta (hpos p q hp hq (by omega))
  unfold pairDelta
  refine Finset.sum_eq_zero (fun z hz => ?_)
  have hz' := Finset.mem_range.1 hz
  unfold origDelta
  rw [if_neg]
  rintro (h | h)
  · exact absurd (lt_of_le_of_lt h hneg) (not_lt.2 (hnn z p hz' hp))
  · exact absurd (lt_of_le_of_lt h hneg) (not_lt.2 (hnn z q hz' hq))

theorem optPair_eq_zero_of_neg (D : Nat → ℚ) (beta : ℚ) (n p q : Nat) (hbeta : beta < 0)
    (hnn : NonNegD D n) (hpos : PosOffDiagD D n) (hpq : p < q) (hq : q < n) :
    optPair D beta n p q = 0 := by
  have hp : p < n := by omega
  have hneg : beta * D (p + q * n) < 0 :=
    mul_neg_of_neg_of_pos hbeta (hpos p q hp hq (by omega))
  unfold optPair
  refine Finset.sum_eq_zero (fun z hz => ?_)
  have hz' := Finset.mem_range.1 hz
  unfold optDelta
  rw [if_neg]
  rintro (h | h)
  · exact absurd (lt_of_le_of_lt h hneg) (not_lt.2 (hnn q z hq hz'))
  · exact absurd (lt_of_le_of_lt h hneg) (not_lt.2 (hnn p z hp hz'))

/-! ## `beta = 0` -/

theorem focus_zero_iff (D : Nat → ℚ) (n x y z : Nat) (hzd : ZeroDiagD D n)
    (hpos : PosOffDiagD D n) (hx : x < n) (hy : y < n) (hz : z < n) :
    (D (lin z x n) ≤ 0 * D (lin x y n) ∨ D (lin z y n) ≤ 0 * D (lin x y n)) ↔
      (z = x ∨ z = y) := by
  rw [zero_mul]
  constructor
  · rintro (h | h)
    · left
      by_contra hne
      exact absurd h (not_le.2 (hpos z x hz hx hne))
    · right
      by_contra hne
      exact absurd h (not_le.2 (hpos z y hz hy hne))
  · rintro (h | h)
    · left; rw [h, hzd x hx]
    · right; rw [h, hzd y hy]

/-! ## Block size zero -/

theorem xLoop_zero_block (D : Nat → ℚ) (beta : ℚ) (n y : Nat) :
    ∀ (fuel : Nat) (s : OptState), xLoop D beta n 0 y fuel 0 s = none := by
  intro fuel
  induction fuel with
  | zero => intro s; simp [xLoop]
  | succ f ih => intro s; simp [xLoop, ih]

theorem yLoop_zero_block (D : Nat → ℚ) (beta : ℚ) (n fx fuel : Nat) (hn : 1 ≤ n)
    (s : OptState) : yLoop D beta n 0 fx fuel 0 s = none := by
  have hlt : 0 < n := by omega
  cases fuel with
  | zero => simp [yLoop, hlt]
  | succ f => simp [yLoop, hlt, xLoop_zero_block]

theorem cacheLen_zero : cacheLen 0 = 0 := by
  norm_num [cacheLen, wrap32]

theorem pald_opt_zero_block (D : Nat → ℚ) (beta : ℚ) (n fuel : Nat) (hn : 1 ≤ n)
    (C : Nat → ℚ) (DXY0 : Nat → ℚ) (UXY0 : Nat → Int) :
    pald_opt fuel D beta n C 0 DXY0 UXY0 = Outcome.outOfFuel := by
  unfold pald_opt
  rw [if_neg (by rw [cacheLen_zero]; simp), yLoop_zero_block D beta n fuel fuel hn]

/-! ## The sample data -/

theorem symmetricD_D2 : SymmetricD D2 2 := by
  intro i j hi hj
  interval_cases i <;> interval_cases j <;> simp [D2, lin]

theorem nonNegD_D2 : NonNegD D2 2 := by
  intro i j hi hj
  interval_cases i <;> interval_cases j <;> simp [D2, lin]

theorem zeroDiagD_D2 : ZeroDiagD D2 2 := by
  intro i hi
  interval_cases i <;> simp [D2, lin]

theorem posOffDiagD_D2 : PosOffDiagD D2 2 := by
  intro i j hi hj hne
  interval_cases i <;> interval_cases j <;> simp [D2, lin] at hne ⊢

theorem symmetricD_Dsame2 : SymmetricD Dsame2 2 := fun _ _ _ _ => rfl

theorem cfs_D2 : cfs D2 1 2 0 1 = 2 := by
  simp [cfs, List.range_succ, lin, D2]

theorem cfs_D2_zero : cfs D2 0 2 0 1 = 2 := by
  simp [cfs, List.range_succ, lin, D2]

theorem pald_orig_D2 : pald_orig D2 1 2 zeroC = halfDiag2 := by
  funext k
  norm_num [pald_orig, pairStep, contribPass, contribStep, cfs, List.range_succ, lin, D2,
    zeroC, bump, Function.update, halfDiag2]
  split_ifs <;> simp_all

theorem pald_orig_Dsame2 : pald_orig Dsame2 (-1) 2 zeroC = quarter2 := by
  funext k
  norm_num [pald_orig, pairStep, contribPass, contribStep, cfs, List.range_succ, lin, Dsame2,
    zeroC, bump, Function.update, quarter2]
  split_ifs <;> first | rfl | omega

theorem pald_opt_D2_one (DXY0 : Nat → ℚ) (UXY0 : Nat → Int) :
    pald_opt 2 D2 1 2 zeroC 1 DXY0 UXY0 = Outcome.finished halfDiag2 := by
  norm_num [pald_opt, yLoop, xLoop, tileStep, blockLen, copyTile, countTile, updTile, updStep,
    countStep, rowLen, memcpy, memset0, cacheLen, wrap32, List.range_succ, D2, bump]
  funext k
  norm_num [Function.update_apply, halfDiag2, zeroC, lin]
  split_ifs <;> simp_all

theorem pald_opt_D2_two (DXY0 : Nat → ℚ) (UXY0 : Nat → Int) :
    pald_opt 2 D2 1 2 zeroC 2 DXY0 UXY0 = Outcome.finished halfDiag2 := by
  norm_num [pald_opt, yLoop, xLoop, tileStep, blockLen, copyTile, countTile, updTile, updStep,
    countStep, rowLen, memcpy, memset0, cacheLen, wrap32, List.range_succ, D2, bump]
  funext k
  norm_num [Function.update_apply, halfDiag2, zeroC, lin]
  split_ifs <;> simp_all

theorem pald_opt_D2_three (DXY0 : Nat → ℚ) (UXY0 : Nat → Int) :
    pald_opt 2 D2 1 2 zeroC 3 DXY0 UXY0 = Outcome.finished halfDiag2 := by
  norm_num [pald_opt, yLoop, xLoop, tileStep, blockLen, copyTile, countTile, updTile, updStep,
    countStep, rowLen, memcpy, memset0, cacheLen, wrap32, List.range_succ, D2, bump]
  funext k
  norm_num [Function.update_apply, halfDiag2, zeroC, lin]
  split_ifs <;> simp_all

theorem pald_opt_Dsame2 (DXY0 : Nat → ℚ) (UXY0 : Nat → Int) :
    pald_opt 2 Dsame2 (-1) 2 zeroC 1 DXY0 UXY0 = Outcome.finished quarter2 := by
  norm_num [pald_opt, yLoop, xLoop, tileStep, blockLen, copyTile, countTile, updTile, updStep,
    countStep, rowLen, memcpy, memset0, cacheLen, wrap32, List.range_succ, Dsame2, bump]
  funext k
  norm_num [Function.update_apply, quarter2, zeroC, lin]
  split_ifs <;> first | rfl | omega

theorem halfDiag2_ne : halfDiag2 ≠ zeroC := by
  intro h
  have := congrFun h 0
  norm_num [halfDiag2, zeroC, lin] at this

theorem quarter2_ne : quarter2 ≠ zeroC := by
  intro h
  have := congrFun h 0
  norm_num [quarter2, zeroC] at this

/-! ## Block sizes whose square does not fit in `int` -/

theorem cacheLen_65536 : cacheLen 65536 = 0 := by
  norm_num [cacheLen, wrap32]

theorem cacheLen_46341 : cacheLen 46341 = -2147479015 := by
  norm_num [cacheLen, wrap32]

theorem pald_opt_null (D : Nat → ℚ) (beta : ℚ) (n b fuel : Nat) (C : Nat → ℚ)
    (DXY0 : Nat → ℚ) (UXY0 : Nat → Int) (hneg : cacheLen b < 0) (hn : 1 ≤ n) :
    pald_opt fuel D beta n C b DXY0 UXY0 = Outcome.nullDeref := by
  unfold pald_opt
  rw [if_pos ⟨hneg, by omega⟩]

theorem pald_opt_D2_uncleared (DXY0 : Nat → ℚ) (C0 : Nat → ℚ) (u : Int) :
    pald_opt 2 D2 1 2 C0 65536 DXY0 (fun _ => u) =
      Outcome.finished
        (bump (bump C0 0 (1 / ((u + 2 : Int) : ℚ))) 3 (1 / ((u + 2 : Int) : ℚ))) := by
  have h : (u : ℚ) + 1 + 1 = (u : ℚ) + 2 := by ring
  norm_num [pald_opt, yLoop, xLoop, tileStep, blockLen, copyTile, countTile, updTile, updStep,
    countStep, rowLen, memcpy, memset0, cacheLen, wrap32, List.range_succ, D2]
  rw [h]

theorem pald_opt_D2_ninth (DXY0 : Nat → ℚ) :
    pald_opt 2 D2 1 2 zeroC 65536 DXY0 (fun _ => 7) = Outcome.finished ninthDiag2 := by
  rw [pald_opt_D2_uncleared]
  congr 1
  funext k
  norm_num [bump, Function.update_apply, ninthDiag2, zeroC, lin]
  split_ifs <;> simp_all

theorem tileStep_uncleared (DXY0 : Nat → ℚ) (C0 : Nat → ℚ) (u : Int) :
    (tileStep D2 1 2 65536 0 0 { C := C0, DXY := DXY0, UXY := fun _ => u }).UXY
      (0 + 1 * blockLen 65536 2 0) = u + 2 := by
  norm_num [tileStep, blockLen, copyTile, countTile,
    countStep, rowLen, memcpy, memset0, cacheLen, wrap32, List.range_succ, D2]
  ring

/-! ## No cross support at `beta = 0` -/

theorem shareX_zero_beta (D : Nat → ℚ) (n a b z : Nat) (hzd : ZeroDiagD D n)
    (hpos : PosOffDiagD D n) (ha : a < n) (hb : b < n) (hz : z < n) (hne : a ≠ z) :
    shareX D 0 n a b z = 0 := by
  unfold shareX
  by_cases hf : D (lin z a n) ≤ 0 * D (lin a b n) ∨ D (lin z b n) ≤ 0 * D (lin a b n)
  · rw [if_pos hf]
    rcases (focus_zero_iff D n a b z hzd hpos ha hb hz).1 hf with h | h
    · exact absurd h.symm hne
    · subst h
      have h1 : D (lin z z n) < D (lin z a n) := by
        rw [hzd z hz]
        exact hpos z a hz ha (Ne.symm hne)
      rw [if_neg (not_lt_of_lt h1), if_pos h1]
  · rw [if_neg hf]

theorem shareY_zero_beta (D : Nat → ℚ) (n b a z : Nat) (hzd : ZeroDiagD D n)
    (hpos : PosOffDiagD D n) (ha : a < n) (hb : b < n) (hz : z < n) (hne : a ≠ z) :
    shareY D 0 n b a z = 0 := by
  unfold shareY
  by_cases hf : D (lin z b n) ≤ 0 * D (lin b a n) ∨ D (lin z a n) ≤ 0 * D (lin b a n)
  · rw [if_pos hf]
    rcases (focus_zero_iff D n b a z hzd hpos hb ha hz).1 hf with h | h
    · subst h
      have h1 : D (lin z z n) < D (lin z a n) := by
        rw [hzd z hz]
        exact hpos z a hz ha (Ne.symm hne)
      rw [if_pos h1]
    · exact absurd h.symm hne
  · rw [if_neg hf]

/-! ## Monotonicity in `beta` -/

theorem cfs_mono (D : Nat → ℚ) (beta1 beta2 : ℚ) (n x y : Nat)
    (hd : 0 ≤ D (lin x y n)) (hle : beta1 ≤ beta2) :
    cfs D beta1 n x y ≤ cfs D beta2 n x y := by
  rw [cfs_eq_sum, cfs_eq_sum]
  refine Finset.sum_le_sum (fun z _ => ?_)
  have hm : beta1 * D (lin x y n) ≤ beta2 * D (lin x y n) := mul_le_mul_of_nonneg_right hle hd
  by_cases h : D (lin z x n) ≤ beta1 * D (lin x y n) ∨ D (lin z y n) ≤ beta1 * D (lin x y n)
  · have h2 : D (lin z x n) ≤ beta2 * D (lin x y n) ∨ D (lin z y n) ≤ beta2 * D (lin x y n) :=
      h.imp (fun h => le_trans h hm) (fun h => le_trans h hm)
    rw [if_pos h, if_pos h2]
  · rw [if_neg h]
    exact Nat.zero_le _

/-! ## The caches after one tile -/

theorem updTile_eq_foldl_updZ (D : Nat → ℚ) (beta : ℚ) (n x y xb yb : Nat) (DXY : Nat → ℚ)
    (UXY : Nat → Int) (C : Nat → ℚ) :
    updTile D beta n x y xb yb DXY UXY C =
      (List.range n).foldl (updZ D beta n x y xb yb DXY UXY) C := rfl

theorem tileStep_UXY (D : Nat → ℚ) (beta : ℚ) (n b x y : Nat) (hb31 : b * b < 2 ^ 31)
    (s : OptState) (j i : Nat) (hj : j < blockLen b n y)
    (hi : i < rowLen x y j (blockLen b n x)) :
    (tileStep D beta n b x y s).UXY (i + j * blockLen b n x) =
      ∑ z in Finset.range n,
        if D (y + z * n + j) ≤ beta * (tileStep D beta n b x y s).DXY (i + j * blockLen b n x) ∨
            D (x + z * n + i) ≤ beta * (tileStep D beta n b x y s).DXY (i + j * blockLen b n x)
        then 1 else 0 := by
  rw [tileStep_UXY_raw D beta n b x y s j i hj hi, memset0_tile b n x y s.UXY hb31 j i hj hi,
    zero_add]

theorem tileStep_DXY (D : Nat → ℚ) (beta : ℚ) (n b x y : Nat) (s : OptState) (j i : Nat)
    (hj : j < blockLen b n y) (hi : i < rowLen x y j (blockLen b n x)) :
    (tileStep D beta n b x y s).DXY (i + j * blockLen b n x) = D (x + i + (y + j) * n) := by
  have hrow : ∀ j, j < blockLen b n y → rowLen x y j (blockLen b n x) ≤ blockLen b n x :=
    fun j hj => rowLen_le b n x y j hj
  have hidx : x + (y + j) * n + i = x + i + (y + j) * n := by omega
  unfold tileStep
  simp only []
  rw [copyTile_get D n x y (blockLen b n x) s.DXY (blockLen b n y) hrow j i hj hi, hidx]

theorem tile_point_lt (b n x y j i : Nat) (hj : j < blockLen b n y)
    (hi : i < rowLen x y j (blockLen b n x)) : x + i < n ∧ y + j < n := by
  have h1 := blockLen_le_sub b n x
  have h2 := blockLen_le_sub b n y
  have h3 := rowLen_le b n x y j hj
  omega

/-! ## Entries written by one iteration over `z` -/

theorem foldl_range_inv {S : Type} (P : S → Prop) (f : S → Nat → S) (n : Nat)
    (h : ∀ s i, i < n → P s → P (f s i)) (s : S) (hs : P s) :
    P ((List.range n).foldl f s) := by
  induction n with
  | zero => simpa using hs
  | succ m ih =>
    rw [List.range_succ, List.foldl_append]
    simp only [List.foldl_cons, List.foldl_nil]
    exact h _ m (Nat.lt_succ_self m) (ih (fun s i hi => h s i (Nat.lt_succ_of_lt hi)))

theorem contribStep_frame (D : Nat → ℚ) (beta : ℚ) (n x y c : Nat) (C : Nat → ℚ) (z k : Nat)
    (hx : x < n) (hy : y < n) (hk : k < z * n ∨ (z + 1) * n ≤ k) :
    contribStep D beta n x y c C z k = C k := by
  have h1 : k ≠ lin x z n := by unfold lin; rw [Nat.succ_mul] at hk; omega
  have h2 : k ≠ lin y z n := by unfold lin; rw [Nat.succ_mul] at hk; omega
  unfold contribStep
  split_ifs <;> first | rfl | simp only [bump, Function.update_noteq h1, Function.update_noteq h2]

theorem updStep_frame (D : Nat → ℚ) (beta : ℚ) (n x y xb : Nat) (DXY : Nat → ℚ)
    (UXY : Nat → Int) (z j : Nat) (C : Nat → ℚ) (i k : Nat) (hx : x + i < n) (hy : y + j < n)
    (hk : k < z * n ∨ (z + 1) * n ≤ k) :
    updStep D beta n x y xb DXY UXY z j C i k = C k := by
  have h1 : k ≠ x + z * n + i := by rw [Nat.succ_mul] at hk; omega
  have h2 : k ≠ y + z * n + j := by rw [Nat.succ_mul] at hk; omega
  unfold updStep
  split_ifs <;> first | rfl | simp only [bump, Function.update_noteq h1, Function.update_noteq h2]

theorem updZ_frame (D : Nat → ℚ) (beta : ℚ) (n b x y : Nat) (DXY : Nat → ℚ)
    (UXY : Nat → Int) (C : Nat → ℚ) (z k : Nat) (hk : k < z * n ∨ (z + 1) * n ≤ k) :
    updZ D beta n x y (blockLen b n x) (blockLen b n y) DXY UXY C z k = C k := by
  unfold updZ
  refine foldl_range_inv (fun C' => C' k = C k) _ _ (fun s j hj hs => ?_) C rfl
  refine foldl_range_inv (fun C' => C' k = C k) _ _ (fun s' i hi hs' => ?_) s hs
  have hlt := tile_point_lt b n x y j i hj hi
  show updStep D beta n x y (blockLen b n x) DXY UXY z j s' i k = C k
  rw [updStep_frame D beta n x y _ DXY UXY z j s' i k hlt.1 hlt.2 hk]
  exact hs'

theorem column_disjoint (n z1 z2 k : Nat) (h1 : z1 * n ≤ k) (h2 : k < (z1 + 1) * n)
    (h3 : z2 * n ≤ k) (h4 : k < (z2 + 1) * n) : z1 = z2 := by
  by_contra hne
  rcases Nat.lt_or_gt_of_ne hne with h | h
  · have := Nat.mul_le_mul_right n (Nat.succ_le_of_lt h)
    rw [Nat.succ_eq_add_one] at this
    omega
  · have := Nat.mul_le_mul_right n (Nat.succ_le_of_lt h)
    rw [Nat.succ_eq_add_one] at this
    omega

/-! ## The tile loops with an arbitrary body -/

theorem xLoop_eq_xLoopG (D : Nat → ℚ) (beta : ℚ) (n b y : Nat) :
    ∀ (fuel x : Nat) (s : OptState),
      xLoop D beta n b y fuel x s =
        xLoopG (fun x s => tileStep D beta n b x y s) b y fuel x s := by
  intro fuel
  induction fuel with
  | zero => intro x s; rfl
  | succ f ih =>
    intro x s
    simp only [xLoop, xLoopG, ih]

theorem yLoop_eq_yLoopG (D : Nat → ℚ) (beta : ℚ) (n b fx : Nat) :
    ∀ (fuel y : Nat) (s : OptState),
      yLoop D beta n b fx fuel y s =
        yLoopG (fun x y s => tileStep D beta n b x y s) n b fx fuel y s := by
  intro fuel
  induction fuel with
  | zero => intro y s; rfl
  | succ f ih =>
    intro y s
    by_cases hlt : y < n
    · simp only [yLoop, yLoopG, if_pos hlt, xLoop_eq_xLoopG]
      cases xLoopG (fun x s => tileStep D beta n b x y s) b y fx 0 s with
      | none => rfl
      | some s' => exact ih (y + b) s'
    · simp only [yLoop, yLoopG, if_neg hlt]

theorem foldl_range_measure {S M : Type} [AddCommMonoid M] (μ : S → M) (f : S → Nat → S)
    (d : Nat → M) (n : Nat) (h : ∀ s i, i < n → μ (f s i) = μ s + d i) (s : S) :
    μ ((List.range n).foldl f s) = μ s + ∑ i in Finset.range n, d i := by
  induction n with
  | zero => simp
  | succ m ih =>
    rw [List.range_succ, List.foldl_append]
    simp only [List.foldl_cons, List.foldl_nil]
    rw [h _ m (Nat.lt_succ_self m), ih (fun s i hi => h s i (Nat.lt_succ_of_lt hi)),
      Finset.sum_range_succ, add_assoc]

theorem xLoopG_measure {S M : Type} [AddCommMonoid M] (μ : S → M) (body : Nat → S → S)
    (δ : Nat → M) (hbody : ∀ x s, μ (body x s) = μ s + δ x) (b : Nat) (hb : 0 < b) (k : Nat) :
    ∀ (m fuel t : Nat) (s : S), t + m = k + 1 → m ≤ fuel →
      ∃ s', xLoopG body b (k * b) fuel (t * b) s = some s' ∧
        μ s' = μ s + ∑ i in Finset.range m, δ ((t + i) * b) := by
  intro m
  induction m with
  | zero =>
    intro fuel t s ht _
    have hgt : ¬ t * b ≤ k * b := by
      subst ht
      have : k * b < (k + 1) * b := Nat.mul_lt_mul_of_pos_right (Nat.lt_succ_self k) hb
      simpa using this
    refine ⟨s, ?_, by simp⟩
    cases fuel <;> simp [xLoopG, hgt]
  | succ m ih =>
    intro fuel t s ht hfuel
    obtain ⟨f, rfl⟩ : ∃ f, fuel = f + 1 := ⟨fuel - 1, by omega⟩
    have hle : t * b ≤ k * b := Nat.mul_le_mul_right b (by omega)
    obtain ⟨s', hs', hC⟩ := ih f (t + 1) (body (t * b) s) (by omega) (by omega)
    refine ⟨s', ?_, ?_⟩
    · have hidx : t * b + b = (t + 1) * b := by ring
      rw [xLoopG, if_pos hle, hidx]
      exact hs'
    · have hsum : ∑ i in Finset.range m, δ ((t + 1 + i) * b) =
          ∑ i in Finset.range m, δ ((t + (i + 1)) * b) :=
        Finset.sum_congr rfl (fun i _ => by rw [show t + 1 + i = t + (i + 1) by omega])
      rw [hC, hbody, Finset.sum_range_succ', hsum, Nat.add_zero]
      abel

theorem yLoopG_measure {S M : Type} [AddCommMonoid M] (μ : S → M) (body : Nat → Nat → S → S)
    (δ : Nat → Nat → M) (hbody : ∀ x y s, μ (body x y s) = μ s + δ x y) (n b : Nat)
    (hb : 0 < b) (T : Nat) (hT : n ≤ T * b) (hT' : ∀ k, k < T → k * b < n) (fx : Nat)
    (hfx : T ≤ fx) :
    ∀ (m fuel k : Nat) (s : S), k + m = T → m ≤ fuel →
      ∃ s', yLoopG body n b fx fuel (k * b) s = some s' ∧
        μ s' = μ s + ∑ i in Finset.range m, ∑ t in Finset.range (k + i + 1),
          δ (t * b) ((k + i) * b) := by
  intro m
  induction m with
  | zero =>
    intro fuel k s hk _
    have hge : ¬ k * b < n := by
      have : k = T := by omega
      subst this; omega
    refine ⟨s, ?_, by simp⟩
    cases fuel <;> simp [yLoopG, hge]
  | succ m ih =>
    intro fuel k s hk hfuel
    obtain ⟨f, rfl⟩ : ∃ f, fuel = f + 1 := ⟨fuel - 1, by omega⟩
    have hlt : k * b < n := hT' k (by omega)
    obtain ⟨s1, hs1, hC1⟩ := xLoopG_measure μ (fun x s => body x (k * b) s)
      (fun x => δ x (k * b)) (fun x s => hbody x (k * b) s) b hb k (k + 1) fx 0 s (by omega)
      (by omega)
    obtain ⟨s', hs', hC⟩ := ih f (k + 1) s1 (by omega) (by omega)
    rw [Nat.zero_mul] at hs1
    refine ⟨s', ?_, ?_⟩
    · have hidx : k * b + b = (k + 1) * b := by ring
      simp only [yLoopG, if_pos hlt, hs1, hidx]
      exact hs'
    · have hsum : ∑ i in Finset.range m, ∑ t in Finset.range (k + 1 + i + 1),
            δ (t * b) ((k + 1 + i) * b) =
          ∑ i in Finset.range m, ∑ t in Finset.range (k + (i + 1) + 1),
            δ (t * b) ((k + (i + 1)) * b) :=
        Finset.sum_congr rfl (fun i _ => by rw [show k + 1 + i = k + (i + 1) by omega])
      have hx : ∑ i in Finset.range (k + 1), δ ((0 + i) * b) (k * b) =
          ∑ t in Finset.range (k + 0 + 1), δ (t * b) ((k + 0) * b) := by
        simp only [Nat.zero_add, Nat.add_zero]
      rw [hC, hC1, Finset.sum_range_succ' _ m, hsum, hx]
      abel

theorem tile_loops_measure {S M : Type} [AddCommMonoid M] (μ : S → M)
    (body : Nat → Nat → S → S) (δ : Nat → Nat → M)
    (hbody : ∀ x y s, μ (body x y s) = μ s + δ x y) (n b : Nat) (hb : 0 < b) (fuel : Nat)
    (hfuel : n ≤ fuel) (s : S) :
    ∃ s', yLoopG body n b fuel fuel 0 s = some s' ∧
      μ s' = μ s + ∑ k in Finset.range (numBlocks n b), ∑ t in Finset.range (k + 1),
        δ (t * b) (k * b) := by
  have hT := numBlocks_le n b hb
  obtain ⟨s', hs', hC⟩ := yLoopG_measure μ body δ hbody n b hb (numBlocks n b)
    (numBlocks_cover n b hb) (numBlocks_lt n b hb) fuel (by omega) (numBlocks n b) fuel 0 s
    (by omega) (by omega)
  rw [Nat.zero_mul] at hs'
  refine ⟨s', hs', ?_⟩
  rw [hC]
  simp only [zero_add]

/-! ## Point pairs reached by the tile loops -/

theorem tile_row_sum_gen {M : Type} [AddCommMonoid M] (G : Nat → Nat → M) (n b : Nat)
    (hb : 0 < b) (k : Nat) (hk : k * b < n) :
    (∑ t in Finset.range (k + 1), ∑ j in Finset.range (blockLen b n (k * b)),
        ∑ i in Finset.range (rowLen (t * b) (k * b) j (blockLen b n (t * b))),
          G (t * b + i) (k * b + j)) =
      ∑ j in Finset.range (blockLen b n (k * b)),
        ∑ p in Finset.range (k * b + j), G p (k * b + j) := by
  rw [Finset.sum_range_succ]
  have hoff : ∀ t, t ∈ Finset.range k →
      (∑ j in Finset.range (blockLen b n (k * b)),
        ∑ i in Finset.range (rowLen (t * b) (k * b) j (blockLen b n (t * b))),
          G (t * b + i) (k * b + j)) =
      ∑ j in Finset.range (blockLen b n (k * b)), ∑ i in Finset.range b,
        G (t * b + i) (k * b + j) := by
    intro t ht
    have ht' := Finset.mem_range.1 ht
    have hle : t * b + b ≤ k * b := by
      have := Nat.mul_le_mul_right b (Nat.succ_le_of_lt ht')
      rw [Nat.succ_mul] at this
      exact this
    have hne : t * b ≠ k * b := by omega
    refine Finset.sum_congr rfl (fun j _ => ?_)
    rw [rowLen, if_neg hne, blockLen_full b n (t * b) (k * b) hle hk]
  have hdiag : (∑ j in Finset.range (blockLen b n (k * b)),
        ∑ i in Finset.range (rowLen (k * b) (k * b) j (blockLen b n (k * b))),
          G (k * b + i) (k * b + j)) =
      ∑ j in Finset.range (blockLen b n (k * b)), ∑ i in Finset.range j,
        G (k * b + i) (k * b + j) := by
    refine Finset.sum_congr rfl (fun j _ => ?_)
    rw [rowLen, if_pos rfl]
  rw [Finset.sum_congr rfl hoff, hdiag, Finset.sum_comm, ← Finset.sum_add_distrib]
  refine Finset.sum_congr rfl (fun j _ => ?_)
  rw [sum_full_blocks b (fun p => G p (k * b + j)) k, Finset.sum_range_add]

theorem tiles_total_gen {M : Type} [AddCommMonoid M] (G : Nat → Nat → M) (n b : Nat)
    (hb : 0 < b) :
    (∑ k in Finset.range (numBlocks n b), ∑ t in Finset.range (k + 1),
        ∑ j in Finset.range (blockLen b n (k * b)),
          ∑ i in Finset.range (rowLen (t * b) (k * b) j (blockLen b n (t * b))),
            G (t * b + i) (k * b + j)) =
      ∑ q in Finset.range n, ∑ p in Finset.range q, G p q := by
  have h1 : ∀ k, k ∈ Finset.range (numBlocks n b) →
      (∑ t in Finset.range (k + 1), ∑ j in Finset.range (blockLen b n (k * b)),
        ∑ i in Finset.range (rowLen (t * b) (k * b) j (blockLen b n (t * b))),
          G (t * b + i) (k * b + j)) =
        ∑ j in Finset.range (blockLen b n (k * b)),
          (fun q => ∑ p in Finset.range q, G p q) (k * b + j) :=
    fun k hk => tile_row_sum_gen G n b hb k (numBlocks_lt n b hb k (Finset.mem_range.1 hk))
  rw [Finset.sum_congr rfl h1,
    sum_blocks b n (fun q => ∑ p in Finset.range q, G p q) (numBlocks n b),
    min_eq_right (numBlocks_cover n b hb)]

theorem tilePairs_count (n b x y : Nat) (L : List (Nat × Nat)) (pq : Nat × Nat) :
    (tilePairs n b x y L).count pq =
      L.count pq + ∑ j in Finset.range (blockLen b n y),
        ∑ i in Finset.range (rowLen x y j (blockLen b n x)),
          if (x + i, y + j) = pq then 1 else 0 := by
  unfold tilePairs
  refine foldl_range_measure (fun L => List.count pq L) _ _ _ (fun s j _ => ?_) L
  refine foldl_range_measure (fun L => List.count pq L) _ _ _ (fun s i _ => ?_) s
  simp only [List.count_append, List.count_singleton]
  by_cases h : (x + i, y + j) = pq
  · simp [h]
  · have h' : ¬ ((x + i, y + j) == pq) = true := by simpa using h
    simp [h, h']

theorem pair_indicator_sum (n p q : Nat) :
    (∑ q' in Finset.range n, ∑ p' in Finset.range q',
      if (p', q') = (p, q) then 1 else 0) = if p < q ∧ q < n then 1 else 0 := by
  have h1 : ∀ q', q' ∈ Finset.range n →
      (∑ p' in Finset.range q', if (p', q') = (p, q) then 1 else 0) =
        if q' = q then (if p < q then 1 else 0) else 0 := by
    intro q' _
    by_cases hq : q' = q
    · subst hq
      simp only [Prod.mk.injEq, and_true, if_true]
      rw [Finset.sum_ite_eq']
      simp only [Finset.mem_range]
    · simp [hq]
  rw [Finset.sum_congr rfl h1, Finset.sum_ite_eq']
  simp only [Finset.mem_range]
  by_cases h1 : q < n <;> by_cases h2 : p < q <;> simp [h1, h2]

/-! ## Array accesses of the tile loops -/

theorem xLoopG_inv {S : Type} (P : S → Prop) (body : Nat → S → S) (b y : Nat)
    (hbody : ∀ x s, x ≤ y → P s → P (body x s)) :
    ∀ (fuel x : Nat) (s s' : S), P s → xLoopG body b y fuel x s = some s' → P s' := by
  intro fuel
  induction fuel with
  | zero =>
    intro x s s' hs h
    by_cases hle : x ≤ y
    · simp [xLoopG, hle] at h
    · simp only [xLoopG, if_neg hle, Option.some.injEq] at h
      rw [← h]; exact hs
  | succ f ih =>
    intro x s s' hs h
    by_cases hle : x ≤ y
    · simp only [xLoopG, if_pos hle] at h
      exact ih (x + b) (body x s) s' (hbody x s hle hs) h
    · simp only [xLoopG, if_neg hle, Option.some.injEq] at h
      rw [← h]; exact hs

theorem yLoopG_inv {S : Type} (P : S → Prop) (body : Nat → Nat → S → S) (n b fx : Nat)
    (hbody : ∀ x y s, x ≤ y → y < n → P s → P (body x y s)) :
    ∀ (fuel y : Nat) (s s' : S), P s → yLoopG body n b fx fuel y s = some s' → P s' := by
  intro fuel
  induction fuel with
  | zero =>
    intro y s s' hs h
    by_cases hlt : y < n
    · simp [yLoopG, hlt] at h
    · simp only [yLoopG, if_neg hlt, Option.some.injEq] at h
      rw [← h]; exact hs
  | succ f ih =>
    intro y s s' hs h
    by_cases hlt : y < n
    · simp only [yLoopG, if_pos hlt] at h
      cases hx : xLoopG (fun x s => body x y s) b y fx 0 s with
      | none => simp [hx] at h
      | some s1 =>
        simp only [hx] at h
        exact ih (y + b) s1 s' (xLoopG_inv P (fun x s => body x y s) b y
          (fun x s hxy hs => hbody x y s hxy hlt hs) fx 0 s s1 hs hx) h
    · simp only [yLoopG, if_neg hlt, Option.some.injEq] at h
      rw [← h]; exact hs

theorem point_index_lt (n p z : Nat) (hp : p < n) (hz : z < n) : p + z * n < n * n :=
  tile_index_lt n n n p z le_rfl le_rfl hp hz

theorem wrap32_natCast (k : Nat) (h : k < 2 ^ 31) : wrap32 (k : Int) = (k : Int) :=
  wrap32_of_lt _ (Int.natCast_nonneg k) (by exact_mod_cast h)

theorem tileAccesses_inBounds (n b x y : Nat) (hb31 : b * b < 2 ^ 31) (hn31 : n * n < 2 ^ 31)
    (hxy : x ≤ y) (hy : y < n) (L : List Access)
    (hL : ∀ a ∈ L, a.inBounds n b) : ∀ a ∈ tileAccesses n b x y L, a.inBounds n b := by
  have hrow : ∀ j, j < blockLen b n y → rowLen x y j (blockLen b n x) ≤ blockLen b n x :=
    fun j hj => rowLen_le b n x y j hj
  have hxb := blockLen_le b n x
  have hyb := blockLen_le b n y
  have hxs := blockLen_le_sub b n x
  have hcl := cacheLen_of_lt b hb31
  have hscan : ∀ (z j i : Nat), z < n → j < blockLen b n y →
      i < rowLen x y j (blockLen b n x) →
      (Access.readD ((y + z * n + j : Nat) : Int)).inBounds n b ∧
      (Access.cache (wrap32 ((i + j * blockLen b n x : Nat) : Int))).inBounds n b ∧
      (Access.readD ((x + z * n + i : Nat) : Int)).inBounds n b ∧
      (Access.updC ((x + z * n + i : Nat) : Int)).inBounds n b ∧
      (Access.updC ((y + z * n + j : Nat) : Int)).inBounds n b := by
    intro z j i hz hj hi
    have hlt := tile_point_lt b n x y j i hj hi
    have h1 : y + z * n + j < n * n := by
      have := point_index_lt n (y + j) z hlt.2 hz
      omega
    have h2 : x + z * n + i < n * n := by
      have := point_index_lt n (x + i) z hlt.1 hz
      omega
    have h3 := tile_index_lt b _ _ i j hxb hyb (lt_of_lt_of_le hi (hrow j hj)) hj
    have h1' : ((y + z * n + j : Nat) : Int) < (n : Int) * (n : Int) := by exact_mod_cast h1
    have h2' : ((x + z * n + i : Nat) : Int) < (n : Int) * (n : Int) := by exact_mod_cast h2
    have h3' : ((i + j * blockLen b n x : Nat) : Int) < cacheLen b := by
      rw [hcl]; exact_mod_cast h3
    simp only [Access.inBounds]
    rw [wrap32_natCast _ (by omega)]
    exact ⟨⟨Int.natCast_nonneg _, h1'⟩, ⟨Int.natCast_nonneg _, h3'⟩,
      ⟨Int.natCast_nonneg _, h2'⟩, ⟨Int.natCast_nonneg _, h2'⟩, ⟨Int.natCast_nonneg _, h1'⟩⟩
  unfold tileAccesses
  simp only []
  refine foldl_range_inv (fun L : List Access => ∀ a ∈ L, a.inBounds n b) _ _
    (fun s z hz hs => ?_) _ ?_
  · refine foldl_range_inv (fun L : List Access => ∀ a ∈ L, a.inBounds n b) _ _
      (fun s j hj hs => ?_) s hs
    refine foldl_range_inv (fun L : List Access => ∀ a ∈ L, a.inBounds n b) _ _
      (fun s i hi hs => ?_) s hs
    obtain ⟨h1, h2, h3, h4, h5⟩ := hscan z j i hz hj hi
    intro a ha
    simp only [List.mem_append, List.mem_cons, List.mem_singleton, List.not_mem_nil,
      or_false] at ha
    rcases ha with ha | rfl | rfl | rfl | rfl | rfl
    · exact hs a ha
    · exact h1
    · exact h2
    · exact h3
    · exact h4
    · exact h5
  · refine foldl_range_inv (fun L : List Access => ∀ a ∈ L, a.inBounds n b) _ _
      (fun s z hz hs => ?_) _ ?_
    · refine foldl_range_inv (fun L : List Access => ∀ a ∈ L, a.inBounds n b) _ _
        (fun s j hj hs => ?_) s hs
      refine foldl_range_inv (fun L : List Access => ∀ a ∈ L, a.inBounds n b) _ _
        (fun s i hi hs => ?_) s hs
      obtain ⟨h1, h2, h3, _, _⟩ := hscan z j i hz hj hi
      intro a ha
      simp only [List.mem_append, List.mem_cons, List.mem_singleton, List.not_mem_nil,
        or_false] at ha
      rcases ha with ha | rfl | rfl | rfl
      · exact hs a ha
      · exact h1
      · exact h2
      · exact h3
    · intro a ha
      simp only [List.mem_append, List.mem_singleton] at ha
      rcases ha with ha | rfl
      · revert a
        refine foldl_range_inv (fun L : List Access => ∀ a ∈ L, a.inBounds n b) _ _
          (fun s j hj hs => ?_) L hL
        have hr := hrow j hj
        have hyj : y + j < n := by have := blockLen_le_sub b n y; omega
        have hprod : (y + j) * n + n ≤ n * n := by
          have h := Nat.mul_le_mul_right n (Nat.succ_le_of_lt hyj)
          rw [Nat.succ_mul] at h
          exact h
        have h1 : x + (y + j) * n + rowLen x y j (blockLen b n x) ≤ n * n := by omega
        have h2 : j * blockLen b n x + rowLen x y j (blockLen b n x) ≤ b * b := by
          calc j * blockLen b n x + rowLen x y j (blockLen b n x)
              ≤ j * blockLen b n x + blockLen b n x := by omega
            _ = (j + 1) * blockLen b n x := by ring
            _ ≤ b * b := Nat.mul_le_mul (by omega) hxb
        have h1' : (x : Int) + (((y + j) * n : Nat) : Int) +
            ((rowLen x y j (blockLen b n x) : Nat) : Int) ≤ (n : Int) * (n : Int) := by
          exact_mod_cast h1
        have h2' : (((j * blockLen b n x : Nat) : Int)) +
            ((rowLen x y j (blockLen b n x) : Nat) : Int) ≤ cacheLen b := by
          rw [hcl]; exact_mod_cast h2
        intro a ha
        simp only [List.mem_append, List.mem_cons, List.mem_singleton, List.not_mem_nil,
          or_false] at ha
        rcases ha with ha | rfl | rfl
        · exact hs a ha
        · simp only [Access.inBounds]
          rw [wrap32_natCast _ (by omega)]
          exact ⟨add_nonneg (Int.natCast_nonneg _) (Int.natCast_nonneg _), h1'⟩
        · simp only [Access.inBounds]
          rw [wrap32_natCast _ (by omega)]
          exact ⟨Int.natCast_nonneg _, h2'⟩
      · simp only [Access.inBounds]
        rw [hcl]
        exact ⟨Int.natCast_nonneg _, le_rfl⟩

/-! ## A non-symmetric input -/

theorem nonNegD_Dasym3 : NonNegD Dasym3 3 := by
  intro i j hi hj
  interval_cases i <;> interval_cases j <;> norm_num [Dasym3, lin]

theorem zeroDiagD_Dasym3 : ZeroDiagD Dasym3 3 := by
  intro i hi
  interval_cases i <;> norm_num [Dasym3, lin]

theorem not_symmetricD_Dasym3 : ¬ SymmetricD Dasym3 3 := by
  intro h
  have := h 0 1 (by decide) (by decide)
  norm_num [Dasym3, lin] at this

theorem pald_orig_Dasym3 : pald_orig Dasym3 1 3 zeroC 0 = 2 / 3 := by
  norm_num [pald_orig, pairStep, contribPass, contribStep, cfs, List.range_succ, lin, Dasym3,
    zeroC, bump, Function.update, List.range']

theorem pald_opt_Dasym3 (DXY0 : Nat → ℚ) (UXY0 : Nat → Int) :
    ∃ C', pald_opt 3 Dasym3 1 3 zeroC 3 DXY0 UXY0 = Outcome.finished C' ∧ C' 0 = 5 / 6 := by
  have h : ¬ (cacheLen 3 < 0 ∧ 0 < 3) := by norm_num [cacheLen, wrap32]
  refine ⟨_, by unfold pald_opt; rw [if_neg h]; rfl, ?_⟩
  norm_num [yLoop, xLoop, tileStep, blockLen, copyTile, countTile, updTile, updStep,
    countStep, rowLen, memcpy, memset0, cacheLen, wrap32, List.range_succ, Dasym3, bump, zeroC]

/-! ## The claims -/

/-- C1: on a symmetric distance matrix and for every block size `b ≥ 1` whose square
fits in a 32-bit `int`, `pald_opt` finishes (no tile loop needs more than `n`
iterations) and leaves in `C` exactly the matrix `pald_orig` leaves, entry for entry
over exact rationals.  A block size `b ≤ n` has `b * b ≤ n * n`, so its square fits
whenever the `n * n` entries of the matrices can be indexed by an `int`.  This holds
for every `n` and `beta`, for every initial content of `C` (the all-zero matrix in
particular) and whatever the memory of the cache blocks holds; the bound `b ≤ n`,
the sign of `beta` and of `D` and the zero diagonal are not needed. -/
theorem pald_opt_eq_pald_orig (D : Nat → ℚ) (beta : ℚ) (n b fuel : Nat) (C : Nat → ℚ)
    (DXY0 : Nat → ℚ) (UXY0 : Nat → Int) (hsym : SymmetricD D n) (hb : 1 ≤ b)
    (hb31 : b * b < 2 ^ 31) (hfuel : n ≤ fuel) :
    pald_opt fuel D beta n C b DXY0 UXY0 = Outcome.finished (pald_orig D beta n C) := by
  rw [pald_opt_sum D beta n b hb hb31 fuel hfuel, pald_orig_sum]
  congr 2
  refine Finset.sum_congr rfl (fun q hq => Finset.sum_congr rfl (fun p hp => ?_))
  have hq' := Finset.mem_range.1 hq
  have hp' := Finset.mem_range.1 hp
  exact optPair_eq_pairDelta D beta n p q hsym (by omega) hq'

/-- C1 at `D = [[0,5],[5,0]]`, `beta = 1`, `b = 1`. -/
theorem pald_opt_eq_pald_orig_witness :
    SymmetricD D2 2 ∧
      pald_opt 2 D2 1 2 zeroC 1 zeroC (fun _ => 0) =
        Outcome.finished (pald_orig D2 1 2 zeroC) :=
  ⟨symmetricD_D2, pald_opt_eq_pald_orig D2 1 2 1 2 zeroC zeroC (fun _ => 0) symmetricD_D2
    (by decide) (by norm_num) (by decide)⟩

/-- C2: for symmetric `D`, `pald_orig` started from the all-zero `C` returns the
closed form: for all `a, z < n`, the entry `C(a, z)` is the sum over all `b ≠ a` with
`z` in the conflict focus of `{a, b}` of `w / cfs(a, b)`. -/
theorem pald_orig_closed_form (D : Nat → ℚ) (beta : ℚ) (n : Nat) (hsym : SymmetricD D n)
    (a z : Nat) (ha : a < n) (hz : z < n) :
    pald_orig D beta n zeroC (lin a z n) = cohesionSpec D beta n a z := by
  rw [pald_orig_entry D beta n zeroC a z ha hz, cohesionSpec, Finset.sum_filter]
  simp only [zeroC, zero_add]
  exact Finset.sum_congr rfl
    (fun b hb => share_eq_spec D beta n a b z hsym ha (Finset.mem_range.1 hb))

/-- C2 at `D = [[0,5],[5,0]]`, `beta = 1`, entry `C(0, 0)`. -/
theorem pald_orig_closed_form_witness :
    SymmetricD D2 2 ∧ 0 < 2 ∧ pald_orig D2 1 2 zeroC (lin 0 0 2) = cohesionSpec D2 1 2 0 0 :=
  ⟨symmetricD_D2, by decide,
    pald_orig_closed_form D2 1 2 symmetricD_D2 0 0 (by decide) (by decide)⟩

/-- C3: for `beta ≥ 0`, a non-negative `D` with zero diagonal and a pair `x < y < n`,
the body of the pair loops of `pald_orig` adds exactly `1` to `C` in total: the
increments of `C(x, z)` and `C(y, z)` summed over all `z < n` give `1`, and so do the
increments of all `n * n` entries of `C`. -/
theorem pair_contribution_total (D : Nat → ℚ) (beta : ℚ) (n x y : Nat) (C : Nat → ℚ)
    (hbeta : 0 ≤ beta) (hnn : NonNegD D n) (hzd : ZeroDiagD D n) (hxy : x < y) (hy : y < n) :
    (∑ z in Finset.range n,
        ((pairStep D beta n x y C (lin x z n) - C (lin x z n)) +
          (pairStep D beta n x y C (lin y z n) - C (lin y z n)))) = 1 ∧
      (∑ k in Finset.range (n * n), (pairStep D beta n x y C k - C k)) = 1 := by
  have hx : x < n := by omega
  have hc : 1 ≤ cfs D beta n x y :=
    cfs_pos_of_focus D beta n x y x hx (Or.inl (focus_self_left D beta n x y hbeta hnn hzd hx hy))
  have hinc : ∀ k, pairStep D beta n x y C k - C k = pairDelta D beta n x y k := by
    intro k
    rw [pairStep_eq, Pi.add_apply, add_sub_cancel_left]
  simp only [hinc]
  constructor
  · rw [← sum_focus_div D beta n x y hc]
    refine Finset.sum_congr rfl (fun z hz => ?_)
    have hz' := Finset.mem_range.1 hz
    rw [pairDelta_apply D beta n x y x z hx hy hx hz', pairDelta_apply D beta n x y y z hx hy hy hz',
      if_pos rfl, if_neg (by omega), if_neg (by omega), if_pos rfl, add_zero, zero_add, share_add]
  · unfold pairDelta
    simp only [Finset.sum_apply]
    rw [Finset.sum_comm, ← sum_focus_div D beta n x y hc]
    exact Finset.sum_congr rfl
      (fun z hz => origDelta_total D beta n x y _ z hx hy (Finset.mem_range.1 hz))

/-- C3 at `D = [[0,5],[5,0]]`, `beta = 1`, pair `(0, 1)`. -/
theorem pair_contribution_total_witness :
    (0 : ℚ) ≤ 1 ∧ NonNegD D2 2 ∧ ZeroDiagD D2 2 ∧
      ((∑ z in Finset.range 2,
        ((pairStep D2 1 2 0 1 zeroC (lin 0 z 2) - zeroC (lin 0 z 2)) +
          (pairStep D2 1 2 0 1 zeroC (lin 1 z 2) - zeroC (lin 1 z 2)))) = 1 ∧
      (∑ k in Finset.range (2 * 2), (pairStep D2 1 2 0 1 zeroC k - zeroC k)) = 1) :=
  ⟨by norm_num, nonNegD_D2, zeroDiagD_D2,
    pair_contribution_total D2 1 2 0 1 zeroC (by norm_num) nonNegD_D2 zeroDiagD_D2
      (by decide) (by decide)⟩

/-- C4, as stated, fails for block sizes whose square does not fit in `int`: with
`n = 2`, `D = [[0,5],[5,0]]`, `beta = 1` and `b = 65536` the `memset` clears
`cacheLen 65536 = 0` entries, the count of the pair `(0, 1)` starts from what the
memory holds, and a start value of `-4` makes `pald_opt` leave `C(0,0) = -1/2`. -/
theorem nonneg_fails_uncleared :
    1 ≤ 65536 ∧
      pald_opt 2 D2 1 2 zeroC 65536 zeroC (fun _ => -4) = Outcome.finished negHalfDiag2 ∧
      negHalfDiag2 (lin 0 0 2) < 0 := by
  refine ⟨by decide, ?_, by norm_num [negHalfDiag2, lin]⟩
  rw [pald_opt_D2_uncleared]
  congr 1
  funext k
  norm_num [bump, Function.update_apply, negHalfDiag2, zeroC, lin]
  split_ifs <;> simp_all

/-- C4, amended: started from the all-zero `C`, every entry of the matrix left by
`pald_orig` is `≥ 0`, and for every block size `b ≥ 1` whose square fits in a 32-bit
`int`, `pald_opt` finishes and every entry of the matrix it leaves is `≥ 0`; `D` and
`beta` are arbitrary. -/
theorem cohesion_nonneg (D : Nat → ℚ) (beta : ℚ) (n b fuel : Nat) (DXY0 : Nat → ℚ)
    (UXY0 : Nat → Int) (hb : 1 ≤ b) (hb31 : b * b < 2 ^ 31) (hfuel : n ≤ fuel) :
    (∀ k, 0 ≤ pald_orig D beta n zeroC k) ∧
      ∃ C', pald_opt fuel D beta n zeroC b DXY0 UXY0 = Outcome.finished C' ∧
        ∀ k, 0 ≤ C' k := by
  refine ⟨pald_orig_nonneg D beta n zeroC (fun _ => le_rfl), _,
    pald_opt_sum D beta n b hb hb31 fuel hfuel zeroC DXY0 UXY0, fun k => ?_⟩
  rw [Pi.add_apply]
  exact add_nonneg le_rfl (optPair_sum_nonneg D beta n k)

/-- C4 amended, at `D = [[0,5],[5,0]]`, `beta = 1`, `b = 1`, where both kernels leave
`[[1/2, 0], [0, 1/2]]`. -/
theorem cohesion_nonneg_witness :
    (∀ k, 0 ≤ pald_orig D2 1 2 zeroC k) ∧
      ∃ C', pald_opt 2 D2 1 2 zeroC 1 zeroC (fun _ => 0) = Outcome.finished C' ∧
        ∀ k, 0 ≤ C' k :=
  cohesion_nonneg D2 1 2 1 2 zeroC (fun _ => 0) (by decide) (by norm_num) (by decide)

/-- C5: the kernels do not reject a negative `beta`.  With `beta = -1` and two
coincident points (`D` all zero, `n = 2`), `pald_orig` (after printing its
diagnostic) and `pald_opt` run their loops and change every entry of the all-zero
`C` to `1/4`. -/
theorem negative_beta_not_rejected :
    (-1 : ℚ) < 0 ∧ pald_orig Dsame2 (-1) 2 zeroC = quarter2 ∧
      pald_opt 2 Dsame2 (-1) 2 zeroC 1 zeroC (fun _ => 0) = Outcome.finished quarter2 ∧
      quarter2 ≠ zeroC :=
  ⟨by norm_num, pald_orig_Dsame2, pald_opt_Dsame2 zeroC (fun _ => 0), quarter2_ne⟩

/-- C6, as stated, fails: with `n = 2` and block size `b = 3 > n`, `pald_opt` runs
the tile loops on `D = [[0,5],[5,0]]`, `beta = 1` and changes the all-zero `C` to
`[[1/2, 0], [0, 1/2]]`. -/
theorem oversized_block_not_rejected :
    2 < 3 ∧ pald_opt 2 D2 1 2 zeroC 3 zeroC (fun _ => 0) = Outcome.finished halfDiag2 ∧
      halfDiag2 ≠ zeroC :=
  ⟨by decide, pald_opt_D2_three zeroC (fun _ => 0), halfDiag2_ne⟩

/-- C6, amended: for `n ≥ 1` and every block size `b > n` whose square fits in a
32-bit `int`, `pald_opt` does not reject the call: it finishes and leaves in `C` the
same matrix as the call with block size `n`. -/
theorem oversized_block_same_result (D : Nat → ℚ) (beta : ℚ) (n b fuel : Nat) (C : Nat → ℚ)
    (DXY0 DXY1 : Nat → ℚ) (UXY0 UXY1 : Nat → Int) (hn : 1 ≤ n) (hb : n < b)
    (hb31 : b * b < 2 ^ 31) (hfuel : n ≤ fuel) :
    ∃ C', pald_opt fuel D beta n C b DXY0 UXY0 = Outcome.finished C' ∧
      pald_opt fuel D beta n C n DXY1 UXY1 = Outcome.finished C' := by
  have hn31 : n * n < 2 ^ 31 := lt_of_le_of_lt (Nat.mul_le_mul (le_of_lt hb) (le_of_lt hb)) hb31
  exact ⟨_, pald_opt_sum D beta n b (by omega) hb31 fuel hfuel C DXY0 UXY0,
    pald_opt_sum D beta n n hn hn31 fuel hfuel C DXY1 UXY1⟩

/-- C6 amended, at `n = 2`, `b = 3`. -/
theorem oversized_block_same_result_witness :
    ∃ C', pald_opt 2 D2 1 2 zeroC 3 zeroC (fun _ => 0) = Outcome.finished C' ∧
      pald_opt 2 D2 1 2 zeroC 2 zeroC (fun _ => 0) = Outcome.finished C' :=
  oversized_block_same_result D2 1 2 3 2 zeroC zeroC zeroC (fun _ => 0) (fun _ => 0)
    (by decide) (by decide) (by norm_num) (by decide)

/-- C7: for `n = 2`, `D = [[0,5],[5,0]]`, `beta = 1` and an all-zero `C`, the
counting pass gives `cfs(0,1) = 2`, and `pald_orig` as well as `pald_opt` with
`b = 1` or `b = 2` return `[[1/2, 0], [0, 1/2]]`: `C(0,0) = C(1,1) = 1/2` and
`C(1,0) = C(0,1) = 0`. -/
theorem boundary_two_points (DXY0 : Nat → ℚ) (UXY0 : Nat → Int) :
    cfs D2 1 2 0 1 = 2 ∧ pald_orig D2 1 2 zeroC = halfDiag2 ∧
      pald_opt 2 D2 1 2 zeroC 1 DXY0 UXY0 = Outcome.finished halfDiag2 ∧
      pald_opt 2 D2 1 2 zeroC 2 DXY0 UXY0 = Outcome.finished halfDiag2 ∧
      halfDiag2 (lin 0 0 2) = 1 / 2 ∧ halfDiag2 (lin 1 1 2) = 1 / 2 ∧
      halfDiag2 (lin 0 1 2) = 0 ∧ halfDiag2 (lin 1 0 2) = 0 := by
  refine ⟨cfs_D2, pald_orig_D2, pald_opt_D2_one DXY0 UXY0, pald_opt_D2_two DXY0 UXY0, ?_, ?_,
    ?_, ?_⟩ <;> norm_num [halfDiag2, lin]

/-- C8: for `beta ≥ 0`, a non-negative `D` with zero diagonal and a pair `x < y < n`,
the points `x` and `y` both pass the focus test of the counting pass of `pald_orig`,
so the `cfs` it computes is at least `1` and the divisor of the contribution pass
is not zero. -/
theorem cfs_ge_one (D : Nat → ℚ) (beta : ℚ) (n x y : Nat) (hbeta : 0 ≤ beta)
    (hnn : NonNegD D n) (hzd : ZeroDiagD D n) (hxy : x < y) (hy : y < n) :
    (D (lin x x n) ≤ beta * D (lin x y n) ∨ D (lin x y n) ≤ beta * D (lin x y n)) ∧
      (D (lin y x n) ≤ beta * D (lin x y n) ∨ D (lin y y n) ≤ beta * D (lin x y n)) ∧
      1 ≤ cfs D beta n x y := by
  have hx : x < n := by omega
  have h1 : D (lin x x n) ≤ beta * D (lin x y n) :=
    focus_self_left D beta n x y hbeta hnn hzd hx hy
  have h2 : D (lin y y n) ≤ beta * D (lin x y n) := by
    rw [hzd y hy]
    exact mul_nonneg hbeta (hnn x y hx hy)
  exact ⟨Or.inl h1, Or.inr h2, cfs_pos_of_focus D beta n x y x hx (Or.inl h1)⟩

/-- C8 at `D = [[0,5],[5,0]]`, `beta = 1`, pair `(0, 1)`. -/
theorem cfs_ge_one_witness :
    (D2 (lin 0 0 2) ≤ 1 * D2 (lin 0 1 2) ∨ D2 (lin 0 1 2) ≤ 1 * D2 (lin 0 1 2)) ∧
      (D2 (lin 1 0 2) ≤ 1 * D2 (lin 0 1 2) ∨ D2 (lin 1 1 2) ≤ 1 * D2 (lin 0 1 2)) ∧
      1 ≤ cfs D2 1 2 0 1 :=
  cfs_ge_one D2 1 2 0 1 (by norm_num) nonNegD_D2 zeroDiagD_D2 (by decide) (by decide)

/-- C9: for symmetric `D` and points `x, y < n`, the focus test of `pald_orig` and the
focus test of `pald_opt` have, for every `z`, the same truth value for the pair
`(x, y)` as for the swapped pair `(y, x)`; hence the conflict focus sizes of `(x, y)`
and `(y, x)` are equal. -/
theorem focus_swap (D : Nat → ℚ) (beta : ℚ) (n x y : Nat) (hsym : SymmetricD D n)
    (hx : x < n) (hy : y < n) :
    (∀ z, (D (lin z x n) ≤ beta * D (lin x y n) ∨ D (lin z y n) ≤ beta * D (lin x y n)) ↔
        (D (lin z y n) ≤ beta * D (lin y x n) ∨ D (lin z x n) ≤ beta * D (lin y x n))) ∧
      (∀ z, (D (y + z * n) ≤ beta * D (x + y * n) ∨ D (x + z * n) ≤ beta * D (x + y * n)) ↔
        (D (x + z * n) ≤ beta * D (y + x * n) ∨ D (y + z * n) ≤ beta * D (y + x * n))) ∧
      cfs D beta n x y = cfs D beta n y x ∧
      optCount D beta n x y = optCount D beta n y x := by
  have h : D (x + y * n) = D (y + x * n) := hsym x y hx hy
  refine ⟨fun z => ?_, fun z => ?_, cfs_swap D beta n x y hsym hx hy, ?_⟩
  · simp only [lin, h]
    exact or_comm
  · rw [h]
    exact or_comm
  · unfold optCount
    rw [h]
    exact Finset.sum_congr rfl (fun z _ => if_congr or_comm rfl rfl)

/-- C9 at `D = [[0,5],[5,0]]`, `beta = 1`, pair `(0, 1)`. -/
theorem focus_swap_witness :
    SymmetricD D2 2 ∧ cfs D2 1 2 0 1 = cfs D2 1 2 1 0 :=
  ⟨symmetricD_D2, (focus_swap D2 1 2 0 1 symmetricD_D2 (by decide) (by decide)).2.2.1⟩

/-- C10, as stated, fails: `D = [[0,5],[5,0]]` is symmetric with zero diagonal and
positive off-diagonal entries, and with `beta = 0` the counting pass of `pald_orig`
gives `cfs(0,1) = 2`, not `1`. -/
theorem beta_zero_cfs_ne_one :
    SymmetricD D2 2 ∧ ZeroDiagD D2 2 ∧ PosOffDiagD D2 2 ∧ cfs D2 0 2 0 1 = 2 ∧
      cfs D2 0 2 0 1 ≠ 1 :=
  ⟨symmetricD_D2, zeroDiagD_D2, posOffDiagD_D2, cfs_D2_zero, by rw [cfs_D2_zero]; decide⟩

/-- C10, amended: with `beta = 0` and a distance matrix with zero diagonal and
strictly positive off-diagonal entries, the conflict focus size computed by
`pald_orig` is `2` for every pair `x < y < n`: exactly `x` and `y` pass the test. -/
theorem beta_zero_cfs_eq_two (D : Nat → ℚ) (n x y : Nat) (hzd : ZeroDiagD D n)
    (hpos : PosOffDiagD D n) (hxy : x < y) (hy : y < n) : cfs D 0 n x y = 2 := by
  have hx : x < n := by omega
  rw [cfs_eq_sum]
  have h1 : ∀ z, z ∈ Finset.range n →
      (if D (lin z x n) ≤ 0 * D (lin x y n) ∨ D (lin z y n) ≤ 0 * D (lin x y n)
        then 1 else 0) = if z = x ∨ z = y then 1 else 0 := fun z hz =>
    if_congr (focus_zero_iff D n x y z hzd hpos hx hy (Finset.mem_range.1 hz)) rfl rfl
  rw [Finset.sum_congr rfl h1, ← Finset.card_filter]
  have hset : (Finset.range n).filter (fun z => z = x ∨ z = y) = {x, y} := by
    ext z
    simp only [Finset.mem_filter, Finset.mem_range, Finset.mem_insert, Finset.mem_singleton]
    omega
  rw [hset, Finset.card_pair (by omega)]

/-- C10 amended, at `D = [[0,5],[5,0]]`, pair `(0, 1)`. -/
theorem beta_zero_cfs_eq_two_witness :
    ZeroDiagD D2 2 ∧ PosOffDiagD D2 2 ∧ cfs D2 0 2 0 1 = 2 :=
  ⟨zeroDiagD_D2, posOffDiagD_D2,
    beta_zero_cfs_eq_two D2 2 0 1 zeroDiagD_D2 posOffDiagD_D2 (by decide) (by decide)⟩

/-- C11: with `beta = 0` and a distance matrix with zero diagonal and strictly
positive off-diagonal entries, `pald_orig` started from the all-zero `C` leaves
`C(x, z) = 0` for all points `x ≠ z`: only the entries `C(x, x)` receive support. -/
theorem beta_zero_no_cross_support (D : Nat → ℚ) (n x z : Nat) (hzd : ZeroDiagD D n)
    (hpos : PosOffDiagD D n) (hx : x < n) (hz : z < n) (hne : x ≠ z) :
    pald_orig D 0 n zeroC (lin x z n) = 0 := by
  rw [pald_orig_entry D 0 n zeroC x z hx hz]
  simp only [zeroC, zero_add]
  refine Finset.sum_eq_zero (fun b hb => ?_)
  have hb' := Finset.mem_range.1 hb
  rw [shareX_zero_beta D n x b z hzd hpos hx hb' hz hne,
    shareY_zero_beta D n b x z hzd hpos hx hb' hz hne]
  simp

/-- C11 at `D = [[0,5],[5,0]]`, entry `C(0, 1)`. -/
theorem beta_zero_no_cross_support_witness :
    ZeroDiagD D2 2 ∧ PosOffDiagD D2 2 ∧ pald_orig D2 0 2 zeroC (lin 0 1 2) = 0 :=
  ⟨zeroDiagD_D2, posOffDiagD_D2,
    beta_zero_no_cross_support D2 2 0 1 zeroDiagD_D2 posOffDiagD_D2 (by decide) (by decide)
      (by decide)⟩

/-- C12: for non-negative `D`, points `x, y < n` and `beta1 ≤ beta2`, every point
that passes the focus test of the pair `(x, y)` at `beta1` passes it at `beta2`, and
the `cfs` computed by the counting pass does not decrease from `beta1` to `beta2`. -/
theorem focus_monotone (D : Nat → ℚ) (beta1 beta2 : ℚ) (n x y : Nat) (hnn : NonNegD D n)
    (hx : x < n) (hy : y < n) (hle : beta1 ≤ beta2) :
    (∀ z, (D (lin z x n) ≤ beta1 * D (lin x y n) ∨ D (lin z y n) ≤ beta1 * D (lin x y n)) →
        (D (lin z x n) ≤ beta2 * D (lin x y n) ∨ D (lin z y n) ≤ beta2 * D (lin x y n))) ∧
      cfs D beta1 n x y ≤ cfs D beta2 n x y := by
  have hd := hnn x y hx hy
  have hm : beta1 * D (lin x y n) ≤ beta2 * D (lin x y n) := mul_le_mul_of_nonneg_right hle hd
  exact ⟨fun z h => h.imp (fun h => le_trans h hm) (fun h => le_trans h hm),
    cfs_mono D beta1 beta2 n x y hd hle⟩

/-- C12 at `D = [[0,5],[5,0]]`, the pair `(0, 1)`, `beta1 = 0`, `beta2 = 1`. -/
theorem focus_monotone_witness :
    NonNegD D2 2 ∧ (0 : ℚ) ≤ 1 ∧ cfs D2 0 2 0 1 ≤ cfs D2 1 2 0 1 :=
  ⟨nonNegD_D2, by norm_num,
    (focus_monotone D2 0 1 2 0 1 nonNegD_D2 (by decide) (by decide) (by norm_num)).2⟩

/-- C14: for every `n` and every block size `b ≥ 1`, also when `b` does not divide
`n`, the tile loops of `pald_opt` finish and reach every point pair `(p, q)` with
`p < q < n` exactly once and no other pair. -/
theorem tile_loops_visit_once (n b fuel : Nat) (hb : 1 ≤ b) (hfuel : n ≤ fuel) :
    ∃ L, visitedPairs fuel n b = some L ∧
      ∀ p q, L.count (p, q) = if p < q ∧ q < n then 1 else 0 := by
  have hmon : ∀ pq : Nat × Nat, ∃ L, visitedPairs fuel n b = some L ∧
      L.count pq = ∑ k in Finset.range (numBlocks n b), ∑ t in Finset.range (k + 1),
        ∑ j in Finset.range (blockLen b n (k * b)),
          ∑ i in Finset.range (rowLen (t * b) (k * b) j (blockLen b n (t * b))),
            if (t * b + i, k * b + j) = pq then 1 else 0 := by
    intro pq
    obtain ⟨L, hL, hc⟩ := tile_loops_measure (fun L => List.count pq L) (tilePairs n b)
      (fun x y => ∑ j in Finset.range (blockLen b n y),
        ∑ i in Finset.range (rowLen x y j (blockLen b n x)),
          if (x + i, y + j) = pq then 1 else 0)
      (fun x y s => tilePairs_count n b x y s pq) n b hb fuel hfuel []
    refine ⟨L, hL, ?_⟩
    rw [hc]
    simp
  obtain ⟨L, hL, _⟩ := hmon (0, 0)
  refine ⟨L, hL, fun p q => ?_⟩
  obtain ⟨L', hL', hc⟩ := hmon (p, q)
  have hLL : L' = L := by
    rw [hL] at hL'
    exact (Option.some.inj hL').symm
  rw [← hLL, hc, tiles_total_gen (fun p' q' => if (p', q') = (p, q) then 1 else 0) n b hb,
    pair_indicator_sum]

/-- C14 at `n = 3`, `b = 2` (the last block is shorter than `b`): the pairs are
reached in the order `(0,1)`, `(0,2)`, `(1,2)`. -/
theorem tile_loops_visit_once_witness :
    visitedPairs 3 3 2 = some [(0, 1), (0, 2), (1, 2)] ∧
      ∃ L, visitedPairs 3 3 2 = some L ∧
        ∀ p q, L.count (p, q) = if p < q ∧ q < 3 then 1 else 0 :=
  ⟨by decide, tile_loops_visit_once 3 2 3 (by decide) (by decide)⟩

/-- C15, as stated, fails for block sizes whose square does not fit in `int`: with
`n = 2`, `D = [[0,5],[5,0]]`, `beta = 1`, `b = 65536` and the tile `(0, 0)`, the
`memset` clears no entry, and when the memory holds `7` the entry of the valid
position `i = 0`, `j = 1` is `9` after the counting scan, while `pald_orig` computes
`cfs(0, 1) = 2`. -/
theorem tile_count_uncleared :
    SymmetricD D2 2 ∧ 1 < blockLen 65536 2 0 ∧ 0 < rowLen 0 0 1 (blockLen 65536 2 0) ∧
      (tileStep D2 1 2 65536 0 0 { C := zeroC, DXY := zeroC, UXY := fun _ => 7 }).UXY
          (0 + 1 * blockLen 65536 2 0) = 9 ∧
      cfs D2 1 2 (0 + 0) (0 + 1) = 2 := by
  refine ⟨symmetricD_D2, by decide, by decide, ?_, cfs_D2⟩
  rw [tileStep_uncleared]
  norm_num

/-- C15, amended: for symmetric `D` and every block size `b` whose square fits in a
32-bit `int`, after the counting scan of any tile `(x, y)` of `pald_opt` the entry
`UXY[i + j*xb]` of every valid tile position (`j < yb`, `i < ib`) is the conflict
focus size that the counting pass of `pald_orig` computes for the pair
`(x + i, y + j)`. -/
theorem tile_counts_eq_cfs (D : Nat → ℚ) (beta : ℚ) (n b x y : Nat) (s : OptState)
    (hsym : SymmetricD D n) (hb31 : b * b < 2 ^ 31) (j i : Nat) (hj : j < blockLen b n y)
    (hi : i < rowLen x y j (blockLen b n x)) :
    (tileStep D beta n b x y s).UXY (i + j * blockLen b n x) =
      ((cfs D beta n (x + i) (y + j) : Nat) : Int) := by
  have hlt := tile_point_lt b n x y j i hj hi
  rw [tileStep_UXY D beta n b x y hb31 s j i hj hi, tileStep_DXY D beta n b x y s j i hj hi,
    ← optCount_eq_cfs D beta n (x + i) (y + j) hsym hlt.1 hlt.2]
  unfold optCount
  push_cast
  refine Finset.sum_congr rfl (fun z _ => ?_)
  have hx : x + z * n + i = x + i + z * n := by omega
  have hy : y + z * n + j = y + j + z * n := by omega
  rw [hx, hy]

/-- C15 amended, at `D = [[0,5],[5,0]]`, `beta = 1`, `b = 2`, tile `(0, 0)`, position
`i = 0`, `j = 1`, the memory holding `7` before the `memset`. -/
theorem tile_counts_eq_cfs_witness :
    SymmetricD D2 2 ∧
      (tileStep D2 1 2 2 0 0 { C := zeroC, DXY := zeroC, UXY := fun _ => 7 }).UXY
          (0 + 1 * blockLen 2 2 0) = ((cfs D2 1 2 (0 + 0) (0 + 1) : Nat) : Int) :=
  ⟨symmetricD_D2,
    tile_counts_eq_cfs D2 1 2 2 0 0 { C := zeroC, DXY := zeroC, UXY := fun _ => 7 }
      symmetricD_D2 (by norm_num) 1 0 (by decide) (by decide)⟩

/-- C16: one iteration `z` of the contribution pass of `pald_orig` for a pair
`x, y < n`, and one iteration `z` of the contribution scan of any tile of `pald_opt`,
leave every entry of `C` outside column `z` (flat indices `z*n ≤ k < (z+1)*n`)
unchanged; the columns of two distinct `z` have no index in common.  The loops
over `z` of `pald_orig_par` and `pald_opt_par` have the same bodies. -/
theorem contribution_writes_column (D : Nat → ℚ) (beta : ℚ) (n b x y c xt yt : Nat)
    (DXY : Nat → ℚ) (UXY : Nat → Int) (C : Nat → ℚ) (hx : x < n) (hy : y < n) :
    (∀ z k, (k < z * n ∨ (z + 1) * n ≤ k) → contribStep D beta n x y c C z k = C k) ∧
      (∀ z k, (k < z * n ∨ (z + 1) * n ≤ k) →
        updZ D beta n xt yt (blockLen b n xt) (blockLen b n yt) DXY UXY C z k = C k) ∧
      (∀ z1 z2 k, z1 * n ≤ k → k < (z1 + 1) * n → z2 * n ≤ k → k < (z2 + 1) * n → z1 = z2) :=
  ⟨fun z k hk => contribStep_frame D beta n x y c C z k hx hy hk,
    fun z k hk => updZ_frame D beta n b xt yt DXY UXY C z k hk,
    fun z1 z2 k => column_disjoint n z1 z2 k⟩

/-- C16 at `D = [[0,5],[5,0]]`, `beta = 1`, the pair `(0, 1)` and the tile `(0, 0)`
with `b = 2`: iteration `z = 0` leaves the entry `C[3]` of column `1` unchanged. -/
theorem contribution_writes_column_witness :
    contribStep D2 1 2 0 1 2 zeroC 0 3 = zeroC 3 ∧
      updZ D2 1 2 0 0 (blockLen 2 2 0) (blockLen 2 2 0) zeroC (fun _ => 2) zeroC 0 3 =
        zeroC 3 :=
  ⟨(contribution_writes_column D2 1 2 2 0 1 2 0 0 zeroC (fun _ => 2) zeroC (by decide)
      (by decide)).1 0 3 (Or.inr (by decide)),
    (contribution_writes_column D2 1 2 2 0 1 2 0 0 zeroC (fun _ => 2) zeroC (by decide)
      (by decide)).2.1 0 3 (Or.inr (by decide))⟩

/-- C17, as stated, fails in `pald_opt` for block sizes whose square does not fit
in `int`: with `n = 2`, `D = [[0,5],[5,0]]`, `beta = 1`, `b = 65536` and the tile
`(0, 0)`, the point `z = 0` passes the focus test of the valid position `i = 0`,
`j = 1`, and when the memory holds `-2` the divisor `UXY[i + j*xb]` is `0` after the
counting scan. -/
theorem divisor_zero_uncleared :
    (0 < 2 ∧ 1 < blockLen 65536 2 0 ∧ 0 < rowLen 0 0 1 (blockLen 65536 2 0)) ∧
      (D2 (0 + 0 * 2 + 1) ≤ 1 *
          (tileStep D2 1 2 65536 0 0 { C := zeroC, DXY := zeroC, UXY := fun _ => -2 }).DXY
            (0 + 1 * blockLen 65536 2 0) ∨
        D2 (0 + 0 * 2 + 0) ≤ 1 *
          (tileStep D2 1 2 65536 0 0 { C := zeroC, DXY := zeroC, UXY := fun _ => -2 }).DXY
            (0 + 1 * blockLen 65536 2 0)) ∧
      (tileStep D2 1 2 65536 0 0 { C := zeroC, DXY := zeroC, UXY := fun _ => -2 }).UXY
        (0 + 1 * blockLen 65536 2 0) = 0 := by
  refine ⟨⟨by decide, by decide, by decide⟩, Or.inl ?_, ?_⟩
  · rw [tileStep_DXY D2 1 2 65536 0 0 _ 1 0 (by decide) (by decide)]
    norm_num [D2]
  · rw [tileStep_uncleared]
    norm_num

/-- C17, amended: with no condition on `n`, `D` and `beta`, a point `z < n` that
passes the focus test of the contribution pass was counted by the same test in the
counting pass: in `pald_orig` the divisor `cfs` is then `≥ 1`, and in every tile of
`pald_opt`, for every block size whose square fits in a 32-bit `int`, the divisor
`UXY[i + j*xb]` of every valid tile position is then `≥ 1`. -/
theorem divisor_ge_one (D : Nat → ℚ) (beta : ℚ) (n b x y : Nat) (s : OptState) (z : Nat)
    (hb31 : b * b < 2 ^ 31) (hz : z < n) :
    ((D (lin z x n) ≤ beta * D (lin x y n) ∨ D (lin z y n) ≤ beta * D (lin x y n)) →
        1 ≤ cfs D beta n x y) ∧
      ∀ j i, j < blockLen b n y → i < rowLen x y j (blockLen b n x) →
        (D (y + z * n + j) ≤ beta * (tileStep D beta n b x y s).DXY (i + j * blockLen b n x) ∨
          D (x + z * n + i) ≤ beta * (tileStep D beta n b x y s).DXY (i + j * blockLen b n x)) →
        1 ≤ (tileStep D beta n b x y s).UXY (i + j * blockLen b n x) := by
  refine ⟨fun hf => cfs_pos_of_focus D beta n x y z hz hf, fun j i hj hi hf => ?_⟩
  rw [tileStep_UXY D beta n b x y hb31 s j i hj hi]
  have h := Finset.single_le_sum
    (f := fun z => if D (y + z * n + j) ≤
        beta * (tileStep D beta n b x y s).DXY (i + j * blockLen b n x) ∨
      D (x + z * n + i) ≤ beta * (tileStep D beta n b x y s).DXY (i + j * blockLen b n x)
      then (1 : Int) else 0)
    (fun i _ => by dsimp only; split_ifs <;> norm_num) (Finset.mem_range.2 hz)
  simp only [if_pos hf] at h
  exact h

/-- C17 amended, at `D = [[0,5],[5,0]]`, `beta = 1`, `n = 2`, `z = 0`, the pair and the
tile `(0, 1)` with `b = 1`: the point `0` passes both tests and both divisors are
`≥ 1`. -/
theorem divisor_ge_one_witness :
    1 ≤ cfs D2 1 2 0 1 ∧
      1 ≤ (tileStep D2 1 2 1 0 1 { C := zeroC, DXY := zeroC, UXY := fun _ => 7 }).UXY
        (0 + 0 * blockLen 1 2 0) :=
  ⟨(divisor_ge_one D2 1 2 1 0 1 { C := zeroC, DXY := zeroC, UXY := fun _ => 7 } 0
      (by norm_num) (by decide)).1 (Or.inl (by norm_num [D2, lin])),
    (divisor_ge_one D2 1 2 1 0 1 { C := zeroC, DXY := zeroC, UXY := fun _ => 7 } 0
      (by norm_num) (by decide)).2 0 0 (by decide) (by decide)
      (Or.inl (by
        rw [tileStep_DXY D2 1 2 1 0 1 _ 0 0 (by decide) (by decide)]
        norm_num [D2]))⟩

/-- C18, as stated, fails for block sizes whose square does not fit in `int`: with
`n = 2` and `b = 65536` the two cache blocks are allocated with
`cacheLen 65536 = 0` entries, and the tile `(0, 0)` uses the index `2` on them. -/
theorem access_out_of_bounds :
    ∃ L, optAccesses 2 2 65536 = some L ∧ ∃ a ∈ L, ¬ a.inBounds 2 65536 := by
  refine ⟨_, rfl, Access.cache 2, by decide, ?_⟩
  norm_num [Access.inBounds, cacheLen, wrap32]

/-- C18, amended: for every `n` and every block size `b ≥ 1` such that `n * n` and
`b * b` fit in a 32-bit `int`, also when `b` does not divide `n` or `b > n`,
`pald_opt` finishes and every array access it makes stays in bounds: the indices
used on `D` and `C` are below `n * n`, the source range of every `memcpy` lies inside
`D` and its destination range inside `DXY`, the `memset` stays inside `UXY`, and the
indices used on `DXY` and `UXY` are below the allocated `b * b`. -/
theorem accesses_in_bounds (n b fuel : Nat) (hb : 1 ≤ b) (hb31 : b * b < 2 ^ 31)
    (hn31 : n * n < 2 ^ 31) (hfuel : n ≤ fuel) :
    ∃ L, optAccesses fuel n b = some L ∧ ∀ a ∈ L, a.inBounds n b := by
  obtain ⟨L, hL, _⟩ := tile_loops_measure (fun _ : List Access => (0 : Nat))
    (tileAccesses n b) (fun _ _ => 0) (fun _ _ _ => rfl) n b hb fuel hfuel []
  refine ⟨L, hL, ?_⟩
  exact yLoopG_inv (fun L : List Access => ∀ a ∈ L, a.inBounds n b) (tileAccesses n b) n b fuel
    (fun x y s hxy hy hs => tileAccesses_inBounds n b x y hb31 hn31 hxy hy s hs) fuel 0 [] L
    (fun a ha => absurd ha (List.not_mem_nil a)) hL

/-- C18 amended, at `n = 2`, `b = 3`. -/
theorem accesses_in_bounds_witness :
    ∃ L, optAccesses 2 2 3 = some L ∧ ∀ a ∈ L, a.inBounds 2 3 :=
  accesses_in_bounds 2 3 2 (by decide) (by norm_num) (by norm_num) (by decide)

/-- C19: the agreement of the two kernels needs the symmetry of `D`.  For `n = 3`,
`beta = 1`, block size `3` and the non-symmetric, non-negative, zero-diagonal
`D = [[0,3,5],[1,0,6],[2,4,0]]`, `pald_orig` leaves `C(0,0) = 2/3` and `pald_opt`
leaves `C(0,0) = 5/6`: for the point `0` and `z = 1` the first reads
`D[z + x*n] = D[1] = 1` and the second `D[x + z*n] = D[3] = 3`. -/
theorem asymmetric_kernels_differ :
    ¬ SymmetricD Dasym3 3 ∧ NonNegD Dasym3 3 ∧ ZeroDiagD Dasym3 3 ∧
      Dasym3 (lin 1 0 3) = 1 ∧ Dasym3 (0 + 1 * 3 + 0) = 3 ∧
      pald_orig Dasym3 1 3 zeroC 0 = 2 / 3 ∧
      ∃ C', pald_opt 3 Dasym3 1 3 zeroC 3 zeroC (fun _ => 0) = Outcome.finished C' ∧ C' 0 = 5 / 6 ∧
        C' ≠ pald_orig Dasym3 1 3 zeroC := by
  obtain ⟨C', hC', h0⟩ := pald_opt_Dasym3 zeroC (fun _ => 0)
  refine ⟨not_symmetricD_Dasym3, nonNegD_Dasym3, zeroDiagD_Dasym3, by norm_num [Dasym3, lin],
    by norm_num [Dasym3], pald_orig_Dasym3, C', hC', h0, fun h => ?_⟩
  have h1 := congrFun h 0
  rw [h0, pald_orig_Dasym3] at h1
  norm_num at h1

/-- C20, as stated, fails for block sizes whose square does not fit in `int`.  With
`n = 2`, `D = [[0,5],[5,0]]`, `beta = 1`: at `b = 46341` the allocations return `NULL`
and the call leaves no matrix; at `b = 65536` the `memset` clears no entry, so the
call started from `C0 = [[1/2,0],[0,1/2]]` with the memory holding `7` leaves
`C(0,0) = 1/2 + 1/9`, which is not `C0(0,0)` plus the `1/2` that the call started
from the all-zero `C` leaves when the memory holds `0`. -/
theorem accumulate_fails_uncleared :
    pald_opt 2 D2 1 2 halfDiag2 46341 zeroC (fun _ => 0) = Outcome.nullDeref ∧
      pald_opt 2 D2 1 2 zeroC 65536 zeroC (fun _ => 0) = Outcome.finished halfDiag2 ∧
      ∃ A, pald_opt 2 D2 1 2 halfDiag2 65536 zeroC (fun _ => 7) = Outcome.finished A ∧
        A (lin 0 0 2) ≠ halfDiag2 (lin 0 0 2) + halfDiag2 (lin 0 0 2) := by
  refine ⟨pald_opt_null D2 1 2 46341 2 halfDiag2 zeroC (fun _ => 0)
    (by rw [cacheLen_46341]; norm_num) (by decide), ?_, _, pald_opt_D2_uncleared _ _ 7, ?_⟩
  · rw [pald_opt_D2_uncleared]
    congr 1
    funext k
    norm_num [bump, Function.update_apply, halfDiag2, zeroC, lin]
    split_ifs <;> simp_all
  · norm_num [bump, Function.update_apply, halfDiag2, lin]

/-- C20, amended: the kernels only add to `C`.  For every `n`, `D`, `beta` and initial
content `C0`, `pald_orig` leaves `C0` plus, entry by entry, the matrix it produces
from the all-zero `C`; for every `b ≥ 1` whose square fits in a 32-bit `int` so does
`pald_opt`; and for `n ≤ 1` both leave `C` exactly as it was. -/
theorem kernels_accumulate (D : Nat → ℚ) (beta : ℚ) (n b fuel : Nat) (C0 : Nat → ℚ)
    (DXY0 DXY1 : Nat → ℚ) (UXY0 UXY1 : Nat → Int) (hb : 1 ≤ b) (hb31 : b * b < 2 ^ 31)
    (hfuel : n ≤ fuel) :
    (∀ k, pald_orig D beta n C0 k = C0 k + pald_orig D beta n zeroC k) ∧
      (∃ Z, pald_opt fuel D beta n zeroC b DXY1 UXY1 = Outcome.finished Z ∧
        pald_opt fuel D beta n C0 b DXY0 UXY0 = Outcome.finished (fun k => C0 k + Z k)) ∧
      (n ≤ 1 → pald_orig D beta n C0 = C0 ∧ pald_opt fuel D beta n C0 b DXY0 UXY0 = Outcome.finished C0) := by
  refine ⟨fun k => ?_, ⟨_, pald_opt_sum D beta n b hb hb31 fuel hfuel zeroC DXY1 UXY1, ?_⟩, fun hn => ?_⟩
  · rw [pald_orig_sum D beta n C0, pald_orig_sum D beta n zeroC]
    simp [zeroC]
  · rw [pald_opt_sum D beta n b hb hb31 fuel hfuel C0 DXY0 UXY0]
    congr 1
    funext k
    simp [zeroC]
  · have hz : ∀ (g : Nat → Nat → Nat → ℚ),
        (∑ q in Finset.range n, ∑ p in Finset.range q, g p q) = 0 := by
      intro g
      refine Finset.sum_eq_zero (fun q hq => ?_)
      have : q = 0 := by have := Finset.mem_range.1 hq; omega
      subst this
      simp
    rw [pald_orig_sum, pald_opt_sum D beta n b hb hb31 fuel hfuel, hz, hz]
    simp

/-- C20 amended, at `D = [[0,5],[5,0]]`, `beta = 1`, `b = 1`,
`C0 = [[1/2,0],[0,1/2]]`: the first two parts at `n = 2`, the last at `n = 1`. -/
theorem kernels_accumulate_witness :
    (∀ k, pald_orig D2 1 2 halfDiag2 k = halfDiag2 k + pald_orig D2 1 2 zeroC k) ∧
      (∃ Z, pald_opt 2 D2 1 2 zeroC 1 zeroC (fun _ => 0) = Outcome.finished Z ∧
        pald_opt 2 D2 1 2 halfDiag2 1 zeroC (fun _ => 0) =
          Outcome.finished (fun k => halfDiag2 k + Z k)) ∧
      (pald_orig D2 1 1 halfDiag2 = halfDiag2 ∧
        pald_opt 1 D2 1 1 halfDiag2 1 zeroC (fun _ => 0) = Outcome.finished halfDiag2) :=
  ⟨(kernels_accumulate D2 1 2 1 2 halfDiag2 zeroC zeroC (fun _ => 0) (fun _ => 0) (by decide)
      (by norm_num) (by decide)).1,
    (kernels_accumulate D2 1 2 1 2 halfDiag2 zeroC zeroC (fun _ => 0) (fun _ => 0) (by decide)
      (by norm_num) (by decide)).2.1,
    (kernels_accumulate D2 1 1 1 1 halfDiag2 zeroC zeroC (fun _ => 0) (fun _ => 0) (by decide)
      (by norm_num) (by decide)).2.2 (by decide)⟩

end PaLD
